import Mathlib

/-!
Verification of the KiroGate gateway core against its specification.

The Python sources under `kiro_gateway/` are shallowly embedded: strings are
`List Char`, dictionaries become structures, and generators become pure
functions from the list of parsed upstream events to the list of emitted SSE
events.  External library calls that the repository does not define
(`json.loads`, the tiktoken tokenizer, the model-info cache) are abstracted as
parameters of the corresponding definitions; everything else is translated
clause by clause from the source files named in each section header.
-/

namespace KiroGate

/-- Strings of the embedding: Python `str` values as lists of characters. -/
abbrev Str := List Char

/-! ## Substring search

`findTag tag w` returns the index of the first occurrence of `tag` in `w`,
mirroring Python's `str.find` (restricted to the non-empty needles used by the
gateway).  It is shared by the converters (`"<thinking_mode>" in system_prompt`)
and by the thinking-tag stream handler. -/

/-- Index of the first occurrence of `tag` in `w`, like Python `w.find(tag)`
(with `none` for `-1`). -/
def findTag (tag : Str) : Str → Option Nat
  | [] => if tag = [] then some 0 else none
  | c :: cs =>
    if tag.isPrefixOf (c :: cs) then some 0
    else (findTag tag cs).map (· + 1)

/-- Python `tag in w`. -/
def containsTag (w tag : Str) : Bool := (findTag tag w).isSome

theorem findTag_nil_of_ne_nil {tag : Str} (h : tag ≠ []) : findTag tag [] = none := by
  simp [findTag, h]

theorem findTag_isPrefixOf {tag w : Str} {i : Nat} (h : findTag tag w = some i) :
    tag.isPrefixOf (w.drop i) := by
  induction w generalizing i with
  | nil =>
    by_cases htag : tag = []
    · subst htag; simp [List.isPrefixOf]
    · simp [findTag, htag] at h
  | cons c cs ih =>
    rw [findTag] at h
    by_cases hp : tag.isPrefixOf (c :: cs)
    · simp [hp] at h; subst h; simpa using hp
    · simp [hp] at h
      obtain ⟨j, hj, rfl⟩ := h
      simpa using ih hj

theorem findTag_add_length_le {tag w : Str} {i : Nat} (h : findTag tag w = some i) :
    i + tag.length ≤ w.length := by
  induction w generalizing i with
  | nil =>
    by_cases htag : tag = []
    · subst htag; simp [findTag] at h; omega
    · simp [findTag, htag] at h
  | cons c cs ih =>
    rw [findTag] at h
    by_cases hp : tag.isPrefixOf (c :: cs)
    · simp [hp] at h
      subst h
      have := List.IsPrefix.length_le (List.isPrefixOf_iff_prefix.mp hp)
      simpa using this
    · simp [hp] at h
      obtain ⟨j, hj, rfl⟩ := h
      have := ih hj
      simp
      omega

theorem findTag_min {tag w : Str} {i : Nat} (h : findTag tag w = some i) :
    ∀ j < i, ¬ tag.isPrefixOf (w.drop j) := by
  induction w generalizing i with
  | nil =>
    intro j hj
    by_cases htag : tag = []
    · subst htag; simp [findTag] at h; omega
    · simp [findTag, htag] at h
  | cons c cs ih =>
    rw [findTag] at h
    by_cases hp : tag.isPrefixOf (c :: cs)
    · simp [hp] at h; omega
    · simp [hp] at h
      obtain ⟨k, hk, rfl⟩ := h
      intro j hj
      cases j with
      | zero => simpa using hp
      | succ j' => simpa using ih hk j' (by omega)

theorem findTag_eq_none_iff {tag w : Str} (htag : tag ≠ []) :
    findTag tag w = none ↔ ∀ j, ¬ tag.isPrefixOf (w.drop j) := by
  induction w with
  | nil =>
    constructor
    · intro _ j
      rw [List.drop_nil]
      cases tag with
      | nil => exact absurd rfl htag
      | cons a as => simp [List.isPrefixOf]
    · intro _
      simp [findTag, htag]
  | cons c cs ih =>
    rw [findTag]
    by_cases hp : tag.isPrefixOf (c :: cs)
    · constructor
      · intro hcontra
        simp [hp] at hcontra
      · intro hall
        exact absurd hp (by simpa using hall 0)
    · constructor
      · intro hnone j
        simp [hp] at hnone
        cases j with
        | zero => simpa using hp
        | succ j' => exact (by simpa using (ih.mp hnone) j')
      · intro hall
        simp [hp]
        apply ih.mpr
        intro j
        simpa using hall (j + 1)

theorem findTag_some_of_isPrefixOf {tag w : Str} (htag : tag ≠ []) {j : Nat}
    (h : tag.isPrefixOf (w.drop j)) : ∃ i, findTag tag w = some i ∧ i ≤ j := by
  cases hf : findTag tag w with
  | none => exact absurd h ((findTag_eq_none_iff htag).mp hf j)
  | some i =>
    refine ⟨i, rfl, ?_⟩
    by_contra hlt
    exact findTag_min hf j (by omega) h

end KiroGate

namespace KiroGate

/-! ## Thinking-mode configuration (src/kiro_gateway/converters.py, lines 53-146)

The Python `thinking_config` argument is `None`, a `bool`, a `str`, or a dict
with optional `"type"` and `"budget_tokens"` entries; `budgetTokens = some b`
models a numeric value, `none` models an absent or non-numeric one. -/

/-- `DEFAULT_MAX_THINKING_LENGTH` from converters.py. -/
def DEFAULT_MAX_THINKING_LENGTH : Int := 200000

/-- The `thinking_config` union type accepted by the converters. -/
inductive ThinkingConfig where
  | nothing
  | boolean (b : Bool)
  | string (s : Str)
  | dict (typeVal : Option Str) (budgetTokens : Option Int)
deriving DecidableEq

/-- Python `str.lower`, for the ASCII strings compared by the config helpers. -/
def lowerStr (s : Str) : Str := s.map Char.toLower

/-- `is_thinking_enabled` from converters.py. -/
def is_thinking_enabled : ThinkingConfig → Bool
  | .nothing => false
  | .boolean b => b
  | .string s => lowerStr s = "enabled".toList
  | .dict typeVal budgetTokens =>
    if lowerStr (typeVal.getD []) = "enabled".toList then true
    else
      match budgetTokens with
      | some b => b > 0
      | none => false

/-- `get_thinking_budget` from converters.py. -/
def get_thinking_budget : ThinkingConfig → Int
  | .dict _ (some b) => if b > 0 then b else DEFAULT_MAX_THINKING_LENGTH
  | _ => DEFAULT_MAX_THINKING_LENGTH

/-- Decimal rendering of the budget, as Python string interpolation does. -/
def intToStr (n : Int) : Str := (toString n).toList

/-- `generate_thinking_hint` from converters.py: note the newline between the
two tags. -/
def generate_thinking_hint (cfg : ThinkingConfig) : Str :=
  "<thinking_mode>enabled</thinking_mode>\n<max_thinking_length>".toList
    ++ intToStr (get_thinking_budget cfg)
    ++ "</max_thinking_length>".toList

/-- `inject_thinking_hint` from converters.py. -/
def inject_thinking_hint (systemPrompt : Str) (cfg : ThinkingConfig) : Str :=
  if is_thinking_enabled cfg = false then systemPrompt
  else if containsTag systemPrompt "<thinking_mode>".toList
       || containsTag systemPrompt "<max_thinking_length>".toList then systemPrompt
  else if systemPrompt = [] then generate_thinking_hint cfg
  else generate_thinking_hint cfg ++ "\n\n".toList ++ systemPrompt

/-- The hint C2 claims the code emits: single-line tags, budget defaulting to
16000 and capped at 24576.  Written from the specification's words, for
comparison with `generate_thinking_hint`. -/
def c2ClaimHint (budgetTokens : Option Int) : Str :=
  let b : Int := min (budgetTokens.getD 16000) 24576
  "<thinking_mode>enabled</thinking_mode><max_thinking_length>".toList
    ++ intToStr b
    ++ "</max_thinking_length>".toList

/-- The hint rule the code actually implements, written independently of
`generate_thinking_hint`: two newline-separated tags, budget taken from a
positive supplied `budget_tokens` and otherwise 200000, with no cap. -/
def c2AmendedHint (budgetTokens : Option Int) : Str :=
  let b : Int :=
    match budgetTokens with
    | some v => if v > 0 then v else 200000
    | none => 200000
  "<thinking_mode>enabled</thinking_mode>".toList ++ "\n".toList
    ++ "<max_thinking_length>".toList ++ intToStr b ++ "</max_thinking_length>".toList

/-- The `budget_tokens` entry of a thinking config, when it is a dict. -/
def budgetTokensOf : ThinkingConfig → Option Int
  | .dict _ b => b
  | _ => none

/-- C2 (counterexample): for the enabled config with `budget_tokens = 30000`
and no system text, the hint the code injects is not the capped single-line
hint the claim describes (the code neither caps at 24576 nor joins the two
tags without a newline). -/
theorem c2_counterexample :
    inject_thinking_hint []
        (ThinkingConfig.dict (some "enabled".toList) (some 30000))
      ≠ c2ClaimHint (some 30000) := by
  decide

theorem generate_thinking_hint_eq_amended (cfg : ThinkingConfig) :
    generate_thinking_hint cfg = c2AmendedHint (budgetTokensOf cfg) := by
  cases cfg with
  | nothing => rfl
  | boolean b => rfl
  | string s => rfl
  | dict typeVal budgetTokens =>
    cases budgetTokens with
    | none => rfl
    | some v =>
      by_cases hv : v > 0
      · simp [generate_thinking_hint, c2AmendedHint, budgetTokensOf,
              get_thinking_budget, hv]
      · simp [generate_thinking_hint, c2AmendedHint, budgetTokensOf,
              get_thinking_budget, hv, DEFAULT_MAX_THINKING_LENGTH]

/-- C2 (amended): when thinking is enabled and the system prompt does not
already carry a thinking tag, the injected hint is
`<thinking_mode>enabled</thinking_mode>\n<max_thinking_length>B</max_thinking_length>`
where `B` equals `budget_tokens` when a positive budget is supplied and
defaults to 200000 otherwise, with no cap; the hint is prepended to a
non-empty system prompt with a blank line. -/
theorem c2_thinking_hint (cfg : ThinkingConfig) (sys : Str)
    (hen : is_thinking_enabled cfg = true)
    (h1 : containsTag sys "<thinking_mode>".toList = false)
    (h2 : containsTag sys "<max_thinking_length>".toList = false) :
    inject_thinking_hint sys cfg =
      c2AmendedHint (budgetTokensOf cfg)
        ++ (if sys = [] then [] else "\n\n".toList ++ sys) := by
  by_cases hnil : sys = []
  · subst hnil
    simp only [inject_thinking_hint, hen, h1, h2]
    simp [generate_thinking_hint_eq_amended]
  · simp only [inject_thinking_hint, hen, h1, h2]
    simp [hnil, generate_thinking_hint_eq_amended, List.append_assoc]

/-- C2 witness: the amended hint rule evaluated on the config
`{type: "enabled", budget_tokens: 10000}` with an empty system prompt. -/
theorem c2_thinking_hint_witness :
    inject_thinking_hint []
        (ThinkingConfig.dict (some "enabled".toList) (some 10000)) =
      c2AmendedHint (some 10000) ++ (if ([] : Str) = [] then [] else "\n\n".toList ++ []) :=
  c2_thinking_hint (ThinkingConfig.dict (some "enabled".toList) (some 10000)) []
    (by decide) (by decide) (by decide)

end KiroGate

namespace KiroGate

/-! ## Token-pool allocator scoring (src/kiro_gateway/token_allocator.py, lines 66-126)

`calculate_score` reads the credential's success/fail counters, the time since
its last use (`(now - last_used) / 1000` milliseconds-to-seconds, or 3600 when
it was never used), and the credential's entry in the short-window
`_recent_usage` map.  Timestamps and rates are embedded as rationals. -/

/-- Seconds since last use, as `calculate_score` computes it. -/
def secondsSinceUse (now : ℚ) (lastUsed : Option ℚ) : ℚ :=
  match lastUsed with
  | some t => (now - t) / 1000
  | none => 3600

/-- `calculate_score` from token_allocator.py. -/
def calculate_score (success fail : Nat) (minSuccessRate : ℚ)
    (now : ℚ) (lastUsed : Option ℚ) (recentCount : Nat) : ℚ :=
  let total := success + fail
  let successRate : ℚ := if total = 0 then 1 else (success : ℚ) / (total : ℚ)
  let baseScore : ℚ :=
    if successRate < minSuccessRate ∧ total > 10 then successRate * 20
    else successRate * 40
  let secs := secondsSinceUse now lastUsed
  let cooldownScore : ℚ :=
    if secs < 30 then 5 else if secs < 60 then 15 else if secs < 300 then 25 else 30
  let balanceScore : ℚ := max 0 (30 - (recentCount : ℚ) * 10)
  baseScore + cooldownScore + balanceScore

/-- `_reset_recent_usage_if_needed` from token_allocator.py: the recent-usage
map and its reset timestamp, cleared when more than 60 seconds have passed. -/
def resetRecentUsageIfNeeded (now lastReset : ℚ) (usage : List (Nat × Nat)) :
    List (Nat × Nat) × ℚ :=
  if now - lastReset > 60 then ([], now) else (usage, lastReset)

/-- The scoring rule exactly as the specification words it: a success-rate
component `success/(success+fail) × 40` (×20 under the low-rate penalty), a
piecewise cooldown component, and a load component `max(0, 30 − 10·recent)`. -/
def c8SpecScore (success fail : Nat) (minSuccessRate secs : ℚ) (recentCount : Nat) : ℚ :=
  let rate : ℚ := (success : ℚ) / ((success : ℚ) + (fail : ℚ))
  let rateComponent : ℚ :=
    if rate < minSuccessRate ∧ success + fail > 10 then rate * 20 else rate * 40
  let cooldownComponent : ℚ :=
    if secs < 30 then 5 else if secs < 60 then 15 else if secs < 300 then 25 else 30
  let loadComponent : ℚ := max 0 (30 - 10 * (recentCount : ℚ))
  rateComponent + cooldownComponent + loadComponent

/-- C8: for every credential with at least one recorded use, the allocator's
score is the sum of the three claimed components (success-rate weight 40,
dropped to 20 below the minimum rate with more than 10 total uses; the
5/15/25/30 cooldown steps at 30/60/300 seconds; and `max(0, 30 − 10·recent)`),
and the recent-use counters are cleared whenever more than 60 seconds have
passed since the last reset. -/
theorem c8_calculate_score (success fail : Nat) (minSuccessRate now : ℚ)
    (lastUsed : Option ℚ) (recentCount : Nat)
    (h : success + fail > 0) :
    calculate_score success fail minSuccessRate now lastUsed recentCount =
        c8SpecScore success fail minSuccessRate (secondsSinceUse now lastUsed) recentCount
      ∧ (∀ (lastReset : ℚ) (usage : List (Nat × Nat)),
          (now - lastReset > 60 →
            resetRecentUsageIfNeeded now lastReset usage = ([], now))
          ∧ (¬ now - lastReset > 60 →
            resetRecentUsageIfNeeded now lastReset usage = (usage, lastReset))) := by
  constructor
  · have htot : success + fail ≠ 0 := by omega
    simp only [calculate_score, c8SpecScore, htot, if_false]
    have hcast : ((success + fail : Nat) : ℚ) = (success : ℚ) + (fail : ℚ) := by
      push_cast; ring
    rw [hcast]
    ring_nf
  · intro lastReset usage
    constructor
    · intro hgt; simp [resetRecentUsageIfNeeded, hgt]
    · intro hle; simp [resetRecentUsageIfNeeded, hle]

/-- C8 witness: a credential with 9 successes, 1 failure, last used 45 seconds
ago and 2 recent uses scores 36 + 15 + 10. -/
theorem c8_calculate_score_witness :
    calculate_score 9 1 (1/2) 45000 (some 0) 2 =
        c8SpecScore 9 1 (1/2) (secondsSinceUse 45000 (some 0)) 2
      ∧ (∀ (lastReset : ℚ) (usage : List (Nat × Nat)),
          ((45000 : ℚ) - lastReset > 60 →
            resetRecentUsageIfNeeded 45000 lastReset usage = ([], 45000))
          ∧ (¬ (45000 : ℚ) - lastReset > 60 →
            resetRecentUsageIfNeeded 45000 lastReset usage = (usage, lastReset))) :=
  c8_calculate_score 9 1 (1/2) 45000 (some 0) 2 (by norm_num)

end KiroGate

namespace KiroGate

/-! ## Upstream error mapping (src/kiro_gateway/request_handler.py, lines 218-334)

`RequestHandler.handle_api_error` reads the upstream error body, resolves a
message and an optional reason from the parsed JSON (consulting a nested
`error` object only when the top-level `message` key is absent), optionally
marks the donated credential expired, and maps recognized input-size patterns
to a 400 `invalid_request_error`.  The JSON parse itself is external
(`json.loads`); its outcome is the `parsed` field below, `none` standing for a
body that is not a JSON object. -/

/-- The fields `handle_api_error` reads from a parsed JSON error body:
top-level `reason` and `message`, and `message`/`reason` inside a nested
`error` object. -/
structure ObjFields where
  reason : Option Str
  message : Option Str
  errMessage : Option Str
  errReason : Option Str
deriving DecidableEq

/-- An upstream error body: its raw text, and its fields when it parses as a
JSON object. -/
structure UpstreamErrorBody where
  rawText : Str
  parsed : Option ObjFields
deriving DecidableEq

/-- Python truthiness of the optional reason string (`not error_reason`). -/
def reasonFalsy : Option Str → Bool
  | none => true
  | some s => s = []

/-- The `(error_message, error_reason)` pair after the JSON-inspection block of
`handle_api_error` (including the `"... (reason: R)"` rewrite). -/
def resolveErrorFields (body : UpstreamErrorBody) : Str × Option Str :=
  match body.parsed with
  | none => (body.rawText, none)
  | some f =>
    let message : Str :=
      match f.message with
      | some m => m
      | none => f.errMessage.getD body.rawText
    let reason : Option Str :=
      match f.message with
      | some _ => f.reason
      | none =>
        if reasonFalsy f.reason then
          match f.errReason with
          | some er => some er
          | none => f.reason
        else f.reason
    let message :=
      if reasonFalsy reason then message
      else message ++ " (reason: ".toList ++ reason.getD [] ++ ")".toList
    (message, reason)

/-- `reason_text = error_reason or error_message`. -/
def reasonTextOf (body : UpstreamErrorBody) : Str :=
  let (message, reason) := resolveErrorFields body
  if reasonFalsy reason then message else reason.getD []

/-- Client error formats handled by the gateway. -/
inductive ErrorFormat where
  | openai
  | anthropic
deriving DecidableEq

/-- The error types the handler can answer with. -/
inductive ErrType where
  | invalidRequestError
  | apiError
  | kiroApiError
deriving DecidableEq

/-- The JSON error response the client receives. -/
structure ErrorResponse where
  status : Nat
  errType : ErrType
  message : Str
deriving DecidableEq

/-- `handle_api_error`: returns whether the donated credential is marked
expired, and the response sent to the client. -/
def handle_api_error (statusCode : Nat) (body : UpstreamErrorBody)
    (fmt : ErrorFormat) (hasDonatedToken : Bool) : Bool × ErrorResponse :=
  let message := (resolveErrorFields body).1
  let reason := (resolveErrorFields body).2
  let markExpired :=
    hasDonatedToken && containsTag (reasonTextOf body) "MONTHLY_REQUEST_COUNT".toList
  let combined := reason.getD [] ++ message
  let response :=
    if containsTag combined "CONTENT_LENGTH_EXCEEDS_THRESHOLD".toList then
      ErrorResponse.mk 400 .invalidRequestError
        "Context window is full. Reduce conversation history, system prompt, or tools.".toList
    else if containsTag combined "Input is too long".toList then
      ErrorResponse.mk 400 .invalidRequestError
        "Input is too long. Reduce the size of your messages.".toList
    else
      match fmt with
      | .anthropic => ErrorResponse.mk statusCode .apiError message
      | .openai => ErrorResponse.mk statusCode .kiroApiError message
  (markExpired, response)

/-- The scenario-6 quota body:
`{"reason":"MONTHLY_REQUEST_COUNT_REACHED","message":"..."}`. -/
def quotaBody : UpstreamErrorBody :=
  UpstreamErrorBody.mk
    "\x7b\"reason\":\"MONTHLY_REQUEST_COUNT_REACHED\",\"message\":\"quota\"\x7d".toList
    (some (ObjFields.mk (some "MONTHLY_REQUEST_COUNT_REACHED".toList)
      (some "quota".toList) none none))

/-- C7 (counterexample): for the scenario-6 quota body on the Anthropic path,
the client response is a 400 `api_error` (the upstream status passed through
the generic branch), not the `invalid_request_error` the claim promises. -/
theorem c7_counterexample :
    (handle_api_error 400 quotaBody .anthropic true).2.errType ≠
      ErrType.invalidRequestError := by
  decide

/-- C7 (amended): the handler marks the donated credential expired exactly when
`MONTHLY_REQUEST_COUNT` occurs in the resolved reason (falling back to the
resolved message when no truthy reason is present); bodies whose resolved
reason-plus-message text contains `CONTENT_LENGTH_EXCEEDS_THRESHOLD` or
`Input is too long` are mapped to HTTP 400 `invalid_request_error` regardless
of the upstream status; the scenario-6 quota body itself takes the generic
branch, yielding a 400 `api_error` with the credential marked expired. -/
theorem c7_handle_api_error (statusCode : Nat) (body : UpstreamErrorBody)
    (fmt : ErrorFormat) (hasDonatedToken : Bool) :
    ((handle_api_error statusCode body fmt hasDonatedToken).1 =
        (hasDonatedToken
          && containsTag (reasonTextOf body) "MONTHLY_REQUEST_COUNT".toList))
    ∧ ((containsTag ((resolveErrorFields body).2.getD [] ++ (resolveErrorFields body).1)
            "CONTENT_LENGTH_EXCEEDS_THRESHOLD".toList = true
        ∨ containsTag ((resolveErrorFields body).2.getD [] ++ (resolveErrorFields body).1)
            "Input is too long".toList = true) →
        (handle_api_error statusCode body fmt hasDonatedToken).2.status = 400
        ∧ (handle_api_error statusCode body fmt hasDonatedToken).2.errType =
            ErrType.invalidRequestError)
    ∧ handle_api_error 400 quotaBody .anthropic true =
        (true, ErrorResponse.mk 400 .apiError
          "quota (reason: MONTHLY_REQUEST_COUNT_REACHED)".toList) := by
  refine ⟨rfl, ?_, by decide⟩
  intro hpat
  rcases hpat with hpat | hpat
  · simp only [handle_api_error]
    rw [hpat]
    simp
  · by_cases hcl : containsTag ((resolveErrorFields body).2.getD [] ++ (resolveErrorFields body).1)
        "CONTENT_LENGTH_EXCEEDS_THRESHOLD".toList = true
    · simp only [handle_api_error]
      rw [hcl]
      simp
    · simp only [Bool.not_eq_true] at hcl
      simp only [handle_api_error]
      rw [hcl, hpat]
      simp

/-- C7 witness: the amended statement instantiated on the scenario-6 quota
body (whose combined text triggers neither input-size pattern, hence the
generic branch), discharging the pattern hypothesis on a
`CONTENT_LENGTH_EXCEEDS_THRESHOLD` body. -/
theorem c7_handle_api_error_witness :
    (handle_api_error 413
        (UpstreamErrorBody.mk "CONTENT_LENGTH_EXCEEDS_THRESHOLD".toList none)
        .anthropic false).2.status = 400
    ∧ (handle_api_error 413
        (UpstreamErrorBody.mk "CONTENT_LENGTH_EXCEEDS_THRESHOLD".toList none)
        .anthropic false).2.errType = ErrType.invalidRequestError :=
  (c7_handle_api_error 413
    (UpstreamErrorBody.mk "CONTENT_LENGTH_EXCEEDS_THRESHOLD".toList none)
    .anthropic false).2.1 (Or.inl (by decide))

end KiroGate

namespace KiroGate

/-! ## First-token retry (src/kiro_gateway/streaming.py, lines 653-771)

`stream_with_first_token_retry` runs `for attempt in range(max_retries)`:
a `FirstTokenTimeoutError` moves to the next attempt, a non-200 status raises
an `HTTPException` that propagates, any other exception (in particular a
stream failure after bytes started flowing) propagates, a completed stream
returns, and falling off the loop raises HTTP 504.  Each attempt is embedded
as one outcome of re-issuing the full request. -/

/-- What one issued attempt does. -/
inductive AttemptOutcome where
  | firstTokenTimeout
  | httpError (status : Nat)
  | midStreamFailure (prefixChunks : List Str)
  | success (chunks : List Str)
deriving DecidableEq

/-- How the generator terminates. -/
inductive RetryResult where
  | ok
  | raisedHttp (status : Nat)
  | raisedStream
  | gateway504
deriving DecidableEq

/-- The retry loop: `i` is the next attempt index, the second argument the
number of attempts still allowed.  Returns the chunks yielded to the client
and the terminal result. -/
def fttGo (outcomeAt : Nat → AttemptOutcome) : Nat → Nat → List Str × RetryResult
  | _, 0 => ([], .gateway504)
  | i, k + 1 =>
    match outcomeAt i with
    | .firstTokenTimeout => fttGo outcomeAt (i + 1) k
    | .httpError s => ([], .raisedHttp s)
    | .midStreamFailure pre => (pre, .raisedStream)
    | .success chunks => (chunks, .ok)

/-- `stream_with_first_token_retry`: at most `maxRetries` attempts in total. -/
def stream_with_first_token_retry (maxRetries : Nat)
    (outcomeAt : Nat → AttemptOutcome) : List Str × RetryResult :=
  fttGo outcomeAt 0 maxRetries

/-- Modelled from the claim's words: every first-token timeout re-issues the
full request, up to `maxRetries` re-issues — that is, up to `maxRetries + 1`
attempts in total. -/
def c6ClaimRetry (maxRetries : Nat) (outcomeAt : Nat → AttemptOutcome) :
    List Str × RetryResult :=
  fttGo outcomeAt 0 (maxRetries + 1)

/-- A harness whose first attempt times out before the first token and whose
second attempt succeeds. -/
def c6Harness : Nat → AttemptOutcome := fun i =>
  if i = 0 then .firstTokenTimeout else .success ["x".toList]

/-- C6 (counterexample): with `first_token_max_retries = 1` and a harness that
fails the first attempt and would succeed on the second, the code answers 504
without re-issuing the request, while the claimed policy (re-issue on timeout,
up to `first_token_max_retries` times) would succeed. -/
theorem c6_counterexample :
    stream_with_first_token_retry 1 c6Harness = ([], .gateway504)
    ∧ c6ClaimRetry 1 c6Harness = (["x".toList], .ok)
    ∧ stream_with_first_token_retry 1 c6Harness ≠ c6ClaimRetry 1 c6Harness := by
  refine ⟨rfl, rfl, ?_⟩
  intro h
  rw [show stream_with_first_token_retry 1 c6Harness = ([], .gateway504) from rfl,
      show c6ClaimRetry 1 c6Harness = (["x".toList], .ok) from rfl] at h
  simp at h

theorem fttGo_skip (outcomeAt : Nat → AttemptOutcome) (k : Nat) :
    ∀ i n, k ≤ n → (∀ j < k, outcomeAt (i + j) = .firstTokenTimeout) →
      fttGo outcomeAt i n = fttGo outcomeAt (i + k) (n - k) := by
  induction k with
  | zero => intro i n _ _; simp
  | succ k' ih =>
    intro i n hk hall
    cases n with
    | zero => omega
    | succ n' =>
      have h0 : outcomeAt i = .firstTokenTimeout := by
        have := hall 0 (by omega); simpa using this
      rw [fttGo, h0]
      have := ih (i + 1) n' (by omega)
        (fun j hj => by
          have := hall (j + 1) (by omega)
          simpa [Nat.add_assoc, Nat.add_comm 1 j] using this)
      simpa [Nat.succ_sub_succ, Nat.add_assoc, Nat.add_comm 1 k'] using this

/-- C6 (amended): the loop issues at most `first_token_max_retries` attempts
in total (`first_token_max_retries − 1` re-issues).  While attempts remain,
each first-token timeout re-issues the request, so if the first `k` attempts
time out before the first token and attempt `k` (zero-based, `k` below the
maximum) completes, the client gets that stream; a non-200 status or a
failure after bytes started flowing propagates unretried; and when every
allowed attempt ends in a first-token timeout the caller receives HTTP 504. -/
theorem c6_first_token_retry (maxRetries k : Nat)
    (outcomeAt : Nat → AttemptOutcome)
    (hk : k < maxRetries)
    (hft : ∀ j < k, outcomeAt j = .firstTokenTimeout) :
    (∀ chunks, outcomeAt k = .success chunks →
      stream_with_first_token_retry maxRetries outcomeAt = (chunks, .ok))
    ∧ (∀ pre, outcomeAt k = .midStreamFailure pre →
      stream_with_first_token_retry maxRetries outcomeAt = (pre, .raisedStream))
    ∧ (∀ s, outcomeAt k = .httpError s →
      stream_with_first_token_retry maxRetries outcomeAt = ([], .raisedHttp s))
    ∧ ((∀ j < maxRetries, outcomeAt j = .firstTokenTimeout) →
      stream_with_first_token_retry maxRetries outcomeAt = ([], .gateway504)) := by
  have hstep : stream_with_first_token_retry maxRetries outcomeAt =
      fttGo outcomeAt k (maxRetries - k) := by
    have := fttGo_skip outcomeAt k 0 maxRetries (by omega)
      (fun j hj => by simpa using hft j hj)
    simpa [stream_with_first_token_retry] using this
  have hpos : ∃ m, maxRetries - k = m + 1 := ⟨maxRetries - k - 1, by omega⟩
  obtain ⟨m, hm⟩ := hpos
  refine ⟨?_, ?_, ?_, ?_⟩
  · intro chunks hc
    rw [hstep, hm, fttGo, hc]
  · intro pre hc
    rw [hstep, hm, fttGo, hc]
  · intro s hc
    rw [hstep, hm, fttGo, hc]
  · intro hall
    have hgen : ∀ n i, (∀ j < n, outcomeAt (i + j) = .firstTokenTimeout) →
        fttGo outcomeAt i n = ([], .gateway504) := by
      intro n
      induction n with
      | zero => intro i _; rfl
      | succ n' ih =>
        intro i hall'
        have h0 : outcomeAt i = .firstTokenTimeout := by
          have := hall' 0 (by omega); simpa using this
        rw [fttGo, h0]
        exact ih (i + 1) (fun j hj => by
          have := hall' (j + 1) (by omega)
          simpa [Nat.add_assoc, Nat.add_comm 1 j] using this)
    have := hgen maxRetries 0 (fun j hj => by simpa using hall j hj)
    simpa [stream_with_first_token_retry] using this

/-- C6 witness: with three allowed attempts, a harness timing out on the first
attempt and succeeding on the second delivers the second attempt's stream. -/
theorem c6_first_token_retry_witness :
    stream_with_first_token_retry 3
        (fun i => if i = 0 then .firstTokenTimeout else .success ["ok".toList]) =
      (["ok".toList], .ok) :=
  (c6_first_token_retry 3 1
    (fun i => if i = 0 then .firstTokenTimeout else .success ["ok".toList])
    (by omega)
    (fun j hj => by interval_cases j <;> rfl)).1
    ["ok".toList] rfl

end KiroGate

namespace KiroGate

/-! ## Message model and payload builder (src/kiro_gateway/converters.py)

OpenAI-shaped messages as the converters consume them.  `α` is the type of
JSON values passed through opaquely (tool input schemas and parsed tool-call
arguments); the converters never inspect them.  A `tool_result` item's
`content` is consumed only through `extract_text_content`, so the model stores
that extracted text directly. -/

section Converters

variable (α : Type)

/-- Message roles. -/
inductive Role where
  | system
  | user
  | assistant
  | tool
deriving DecidableEq

/-- One item of a list-shaped message content. -/
inductive ContentPart where
  | text (s : Str)
  | rawString (s : Str)
  | imageUrl (url : Str)
  | image (sourceType : Str) (mediaType : Option Str) (data : Str)
  | toolUse (id name : Str) (input : α)
  | toolResult (toolUseId : Str) (contentText : Str)
deriving DecidableEq

/-- Python message content: `None`, a string, or a list of items. -/
inductive MsgContent where
  | nothing
  | str (s : Str)
  | parts (l : List (ContentPart α))
deriving DecidableEq

/-- An entry of an assistant message's `tool_calls` list; `argumentsJson` is
the raw JSON string of the arguments. -/
structure ToolCallRec where
  id : Str
  name : Str
  argumentsJson : Str
deriving DecidableEq

/-- `ChatMessage` from models.py, restricted to the fields the converters
read. -/
structure ChatMessage where
  role : Role
  content : MsgContent α
  toolCallId : Option Str := none
  toolCalls : Option (List ToolCallRec) := none
deriving DecidableEq

/-- `ToolFunction`+`Tool` from models.py: `parameters = none` models a missing
or `null` schema. -/
structure Tool where
  ttype : Str
  name : Str
  description : Option Str
  parameters : Option α
deriving DecidableEq

end Converters

section ConvertersFuns

variable {α : Type}

/-- `extract_text_content` from converters.py: list items contribute their
`text` field (typed text items and bare strings); other item kinds carry no
`text` key and contribute nothing. -/
def extract_text_content : MsgContent α → Str
  | .nothing => []
  | .str s => s
  | .parts l =>
    (l.map (fun item =>
      match item with
      | .text s => s
      | .rawString s => s
      | _ => [])).flatten

/-- A Kiro-format image: `{"format": ..., "source": {"bytes": ...}}`. -/
structure KiroImage where
  format : Str
  bytes : Str
deriving DecidableEq

/-- The text before the first occurrence of `c` (Python `s.split(c)[0]`). -/
def takeUntilChar (c : Char) (s : Str) : Str := s.takeWhile (· ≠ c)

/-- The text after the first occurrence of `c`, or `none` when `c` is absent
(so that Python's `s.split(c)[1]` raising `IndexError` is `none`). -/
def afterFirstChar (c : Char) : Str → Option Str
  | [] => none
  | x :: xs => if x = c then some xs else afterFirstChar c xs

/-- Parse one OpenAI data URL into a Kiro image, as the `image_url` branch of
`extract_images_from_content` does; `none` models the caught
`ValueError`/`IndexError` (no comma, no colon) and the unsupported
external-URL case. -/
def parseDataUrl (url : Str) : Option KiroImage :=
  if "data:".toList.isPrefixOf url then
    match afterFirstChar ',' url with
    | none => none
    | some data =>
      let header := takeUntilChar ',' url
      match afterFirstChar ':' header with
      | none => none
      | some afterColon =>
        let mediaType := takeUntilChar ';' (takeUntilChar ':' afterColon)
        let imgFormat :=
          if (afterFirstChar '/' mediaType).isSome then
            takeUntilChar '/' ((afterFirstChar '/' mediaType).getD [])
          else "png".toList
        some (KiroImage.mk imgFormat data)
  else none

/-- The Kiro images one content item contributes. -/
def imagesOfItem : ContentPart α → List KiroImage
  | .imageUrl url =>
    match parseDataUrl url with
    | some img => [img]
    | none => []
  | .image sourceType mediaType data =>
    if sourceType = "base64".toList then
      let mt := mediaType.getD "image/png".toList
      let imgFormat :=
        if (afterFirstChar '/' mt).isSome then
          takeUntilChar '/' ((afterFirstChar '/' mt).getD [])
        else "png".toList
      [KiroImage.mk imgFormat data]
    else []
  | _ => []

/-- `extract_images_from_content` from converters.py. -/
def extract_images_from_content : MsgContent α → List KiroImage × Nat
  | .nothing => ([], 0)
  | .str _ => ([], 0)
  | .parts l =>
    let images := (l.map imagesOfItem).flatten
    (images, images.length)

/-- The `tool_result` item synthesized from one `tool` message. -/
def toolResultOfToolMsg (msg : ChatMessage α) : ContentPart α :=
  let t := extract_text_content msg.content
  ContentPart.toolResult (msg.toolCallId.getD [])
    (if t = [] then "(empty result)".toList else t)

/-- First pass of `merge_adjacent_messages`: `tool` messages are collected
(`pending` is the run gathered so far) and each run is replaced by one
synthetic `user` message carrying the accumulated `tool_result` items. -/
def collectToolLoop (pending : List (ContentPart α)) :
    List (ChatMessage α) → List (ChatMessage α)
  | [] => if pending.isEmpty then [] else [ChatMessage.mk .user (.parts pending) none none]
  | msg :: rest =>
    match msg.role with
    | .tool => collectToolLoop (pending ++ [toolResultOfToolMsg msg]) rest
    | _ =>
      if pending.isEmpty then msg :: collectToolLoop [] rest
      else ChatMessage.mk .user (.parts pending) none none :: msg :: collectToolLoop [] rest

/-- `merge_adjacent_messages`, first pass. -/
def collectToolResults (msgs : List (ChatMessage α)) : List (ChatMessage α) :=
  collectToolLoop [] msgs

/-- Merging two same-role adjacent messages (second pass of
`merge_adjacent_messages`): list contents concatenate, mixed contents are
lifted to lists, plain contents join with a newline, and assistant
`tool_calls` lists are unioned when the incoming message carries any. -/
def mergeTwo (last msg : ChatMessage α) : ChatMessage α :=
  let content : MsgContent α :=
    match last.content, msg.content with
    | .parts a, .parts b => .parts (a ++ b)
    | .parts a, _ => .parts (a ++ [ContentPart.text (extract_text_content msg.content)])
    | _, .parts b => .parts (ContentPart.text (extract_text_content last.content) :: b)
    | _, _ => .str (extract_text_content last.content ++ "\n".toList
        ++ extract_text_content msg.content)
  let toolCalls : Option (List ToolCallRec) :=
    match msg.role, msg.toolCalls with
    | .assistant, some l =>
      if l = [] then last.toolCalls
      else some (last.toolCalls.getD [] ++ l)
    | _, _ => last.toolCalls
  ChatMessage.mk last.role content last.toolCallId toolCalls

/-- Second pass of `merge_adjacent_messages`: `last` is the most recent
retained message; a same-role successor is folded into it. -/
def mergeLoop (last : ChatMessage α) : List (ChatMessage α) → List (ChatMessage α)
  | [] => [last]
  | msg :: rest =>
    if msg.role = last.role then mergeLoop (mergeTwo last msg) rest
    else last :: mergeLoop msg rest

/-- `merge_adjacent_messages` from converters.py. -/
def merge_adjacent_messages (msgs : List (ChatMessage α)) : List (ChatMessage α) :=
  match collectToolResults msgs with
  | [] => []
  | first :: rest => mergeLoop first rest

/-- A Kiro tool result: `{"content":[{"text":...}], "status":"success",
"toolUseId":...}`. -/
structure KiroToolResult where
  contentText : Str
  toolUseId : Str
deriving DecidableEq

/-- `_extract_tool_results` from converters.py: only list contents carry
`tool_result` items. -/
def extractToolResults : MsgContent α → List KiroToolResult
  | .parts l =>
    (l.map (fun item =>
      match item with
      | .toolResult toolUseId contentText => [KiroToolResult.mk contentText toolUseId]
      | _ => [])).flatten
  | _ => []

/-- A Kiro tool use: `{"name":..., "input":..., "toolUseId":...}`. -/
structure KiroToolUse (α : Type) where
  name : Str
  input : α
  toolUseId : Str
deriving DecidableEq

/-- `_extract_tool_uses` from converters.py: entries of `tool_calls` (their
argument strings going through `json.loads`, abstracted as `parseArgs`)
followed by `tool_use` items of a list content. -/
def extractToolUses (parseArgs : Str → α) (msg : ChatMessage α) : List (KiroToolUse α) :=
  let fromCalls :=
    match msg.toolCalls with
    | some l => l.map (fun tc => KiroToolUse.mk tc.name (parseArgs tc.argumentsJson) tc.id)
    | none => []
  let fromContent :=
    match msg.content with
    | .parts l =>
      (l.map (fun item =>
        match item with
        | .toolUse id name input => [KiroToolUse.mk name input id]
        | _ => [])).flatten
    | _ => []
  fromCalls ++ fromContent

/-- An entry of the Kiro `history` array. -/
inductive HistEntry (α : Type) where
  | userInput (content : Str) (modelId : Str) (toolResults : List KiroToolResult)
  | assistantResponse (content : Str) (toolUses : List (KiroToolUse α))
deriving DecidableEq

/-- The image placeholder appended to historical messages,
`"\n[此消息包含 N 张图片，已在历史记录中省略]"`. -/
def imagePlaceholder (n : Nat) : Str :=
  "\n[此消息包含 ".toList ++ (toString n).toList ++ " 张图片，已在历史记录中省略]".toList

/-- The history entries one message contributes (`[]` for skipped roles). -/
def histEntriesOf (parseArgs : Str → α) (modelId : Str) (msg : ChatMessage α) :
    List (HistEntry α) :=
  match msg.role with
  | .user =>
    let content := extract_text_content msg.content
    let imageCount := (extract_images_from_content msg.content).2
    let content :=
      if imageCount > 0 then
        if content = [] then imagePlaceholder imageCount
        else content ++ imagePlaceholder imageCount
      else content
    [HistEntry.userInput content modelId (extractToolResults msg.content)]
  | .assistant =>
    [HistEntry.assistantResponse (extract_text_content msg.content)
      (extractToolUses parseArgs msg)]
  | .system => []
  | .tool => []

/-- `build_kiro_history` from converters.py: user and assistant messages map
to history entries (historical images become a placeholder), system and tool
messages are skipped. -/
def build_kiro_history (parseArgs : Str → α) (msgs : List (ChatMessage α))
    (modelId : Str) : List (HistEntry α) :=
  (msgs.map (histEntriesOf parseArgs modelId)).flatten

/-- `process_tools_with_long_descriptions` from converters.py: descriptions
longer than the configured limit are replaced by a reference string, and the
full text is gathered into a `# Tool Documentation` block for the system
prompt. -/
def process_tools_with_long_descriptions (maxLen : Int) :
    Option (List (Tool α)) → Option (List (Tool α)) × Str
  | none => (none, [])
  | some tools =>
    if tools.isEmpty then (none, [])
    else if maxLen ≤ 0 then (some tools, [])
    else
      let step := tools.foldl
        (fun (acc : List Str × List (Tool α)) tool =>
          if tool.ttype ≠ "function".toList then (acc.1, acc.2 ++ [tool])
          else
            let description := tool.description.getD []
            if (description.length : Int) ≤ maxLen then (acc.1, acc.2 ++ [tool])
            else
              let docPart := "## Tool: ".toList ++ tool.name ++ "\n\n".toList ++ description
              let referenceDescription :=
                "[Full documentation in system prompt under '## Tool: ".toList
                  ++ tool.name ++ "']".toList
              (acc.1 ++ [docPart],
               acc.2 ++ [Tool.mk tool.ttype tool.name (some referenceDescription)
                 tool.parameters]))
        ([], [])
      let toolDocumentation :=
        if step.1.isEmpty then []
        else
          "\n\n---\n# Tool Documentation\nThe following tools have detailed documentation that couldn't fit in the tool definition.\n\n".toList
            ++ (step.1.intersperse "\n\n---\n\n".toList).flatten
      (if step.2.isEmpty then none else some step.2, toolDocumentation)

/-- Python `str.strip()`. -/
def stripStr (s : Str) : Str :=
  ((s.dropWhile Char.isWhitespace).reverse.dropWhile Char.isWhitespace).reverse

/-- `_extract_system_and_tool_docs` from converters.py. -/
def extractSystemAndToolDocs (maxLen : Int) (msgs : List (ChatMessage α))
    (tools : Option (List (Tool α))) :
    Str × List (ChatMessage α) × (Option (List (Tool α))) :=
  let processed := process_tools_with_long_descriptions maxLen tools
  let systemPrompt := stripStr ((msgs.filter (fun m => m.role = .system)).foldl
    (fun acc m => acc ++ extract_text_content m.content ++ "\n".toList) [])
  let nonSystem := msgs.filter (fun m => ¬ m.role = .system)
  let systemPrompt :=
    if processed.2 = [] then systemPrompt
    else if systemPrompt = [] then stripStr processed.2
    else systemPrompt ++ processed.2
  (systemPrompt, nonSystem, processed.1)

/-- A Kiro `toolSpecification` (with `inputSchema.json`; `none` renders as the
empty schema `{}` that `parameters or {}` produces). -/
structure KiroToolSpec (α : Type) where
  name : Str
  description : Str
  inputSchema : Option α
deriving DecidableEq

/-- `_build_user_input_context` from converters.py; empty lists model the
omitted keys of the context dict. -/
def buildUserInputContext (tools : Option (List (Tool α)))
    (currentMessage : ChatMessage α) : List (KiroToolSpec α) × List KiroToolResult :=
  let toolsList :=
    match tools with
    | some l =>
      (l.filter (fun t => t.ttype = "function".toList)).map
        (fun t => KiroToolSpec.mk t.name (t.description.getD []) t.parameters)
    | none => []
  (toolsList, extractToolResults currentMessage.content)

/-- The payload `build_kiro_payload` posts (its behaviorally relevant fields;
`conversationId`, `agentContinuationId` and the internal model id are inputs
here because they come from the caller, `uuid4`, and the model table). -/
structure KiroPayload (α : Type) where
  conversationId : Str
  currentContent : Str
  currentImages : List KiroImage
  currentTools : List (KiroToolSpec α)
  currentToolResults : List KiroToolResult
  history : List (HistEntry α)
  profileArn : Str
deriving DecidableEq

/-- Decidable equality for `Except` results, to evaluate the builder on
concrete requests. -/
instance exceptDecEq {ε σ : Type} [DecidableEq ε] [DecidableEq σ] :
    DecidableEq (Except ε σ) := fun x y =>
  match x, y with
  | .ok a, .ok b =>
    if h : a = b then .isTrue (by rw [h]) else .isFalse (by simp [h])
  | .error a, .error b =>
    if h : a = b then .isTrue (by rw [h]) else .isFalse (by simp [h])
  | .ok _, .error _ => .isFalse (by simp)
  | .error _, .ok _ => .isFalse (by simp)

/-- The `history_messages` mutation of `build_kiro_payload`: when system text
exists and the first history message is a user turn, its content is replaced
by `{system}\n\n{original text}` (a plain string, as in the Python code). -/
def mutateFirstHistoryMsg (systemPrompt : Str) :
    List (ChatMessage α) → List (ChatMessage α)
  | [] => []
  | firstMsg :: rest =>
    if systemPrompt ≠ [] ∧ firstMsg.role = .user then
      ChatMessage.mk firstMsg.role
        (.str (systemPrompt ++ "\n\n".toList ++ extract_text_content firstMsg.content))
        firstMsg.toolCallId firstMsg.toolCalls :: rest
    else firstMsg :: rest

/-- The history built from all merged messages but the last. -/
def baseHistory (parseArgs : Str → α) (systemPrompt : Str)
    (first : ChatMessage α) (restMerged : List (ChatMessage α)) (modelId : Str) :
    List (HistEntry α) :=
  build_kiro_history parseArgs
    (mutateFirstHistoryMsg systemPrompt ((first :: restMerged).dropLast)) modelId

/-- The current (last merged) message. -/
def currentMsg (first : ChatMessage α) (restMerged : List (ChatMessage α)) :
    ChatMessage α :=
  (first :: restMerged).getLastD first

/-- The current content after folding in the system prompt when the history is
empty. -/
def currentContent1 (parseArgs : Str → α) (systemPrompt : Str)
    (first : ChatMessage α) (restMerged : List (ChatMessage α)) (modelId : Str) : Str :=
  let c := extract_text_content (currentMsg first restMerged).content
  if systemPrompt ≠ [] ∧ (baseHistory parseArgs systemPrompt first restMerged modelId).isEmpty
  then systemPrompt ++ "\n\n".toList ++ c
  else c

/-- The final history: a trailing assistant message is appended to it. -/
def finalHistory (parseArgs : Str → α) (systemPrompt : Str)
    (first : ChatMessage α) (restMerged : List (ChatMessage α)) (modelId : Str) :
    List (HistEntry α) :=
  if (currentMsg first restMerged).role = .assistant then
    baseHistory parseArgs systemPrompt first restMerged modelId
      ++ [HistEntry.assistantResponse
            (currentContent1 parseArgs systemPrompt first restMerged modelId) []]
  else baseHistory parseArgs systemPrompt first restMerged modelId

/-- The final current content: `"Continue"` replaces a trailing assistant turn
and an empty content. -/
def finalCurrentContent (parseArgs : Str → α) (systemPrompt : Str)
    (first : ChatMessage α) (restMerged : List (ChatMessage α)) (modelId : Str) : Str :=
  let c :=
    if (currentMsg first restMerged).role = .assistant then "Continue".toList
    else currentContent1 parseArgs systemPrompt first restMerged modelId
  if c = [] then "Continue".toList else c

/-- `build_kiro_payload` from converters.py.  `ValueError("没有可发送的消息")`
becomes `Except.error`. -/
def build_kiro_payload (parseArgs : Str → α) (maxToolDescLen : Int)
    (msgs : List (ChatMessage α)) (tools : Option (List (Tool α)))
    (thinkingConfig : ThinkingConfig) (conversationId profileArn modelId : Str) :
    Except Str (KiroPayload α) :=
  let extracted := extractSystemAndToolDocs maxToolDescLen msgs tools
  let systemPrompt := inject_thinking_hint extracted.1 thinkingConfig
  match merge_adjacent_messages extracted.2.1 with
  | [] => .error "没有可发送的消息".toList
  | first :: restMerged =>
    let currentMessage := currentMsg first restMerged
    let currentImages :=
      if currentMessage.role = .user then (extract_images_from_content currentMessage.content).1
      else []
    let context := buildUserInputContext extracted.2.2 currentMessage
    .ok (KiroPayload.mk conversationId
      (finalCurrentContent parseArgs systemPrompt first restMerged modelId)
      currentImages context.1 context.2
      (finalHistory parseArgs systemPrompt first restMerged modelId) profileArn)

end ConvertersFuns

section ConvertersLemmas

variable {α : Type}

theorem mergeTwo_role (last msg : ChatMessage α) : (mergeTwo last msg).role = last.role := rfl

theorem collectToolLoop_cons_tool (pending : List (ContentPart α))
    (msg : ChatMessage α) (rest : List (ChatMessage α)) (h : msg.role = .tool) :
    collectToolLoop pending (msg :: rest) =
      collectToolLoop (pending ++ [toolResultOfToolMsg msg]) rest := by
  rw [collectToolLoop, h]

theorem collectToolLoop_cons_other (pending : List (ContentPart α))
    (msg : ChatMessage α) (rest : List (ChatMessage α)) (h : msg.role ≠ .tool) :
    collectToolLoop pending (msg :: rest) =
      if pending.isEmpty then msg :: collectToolLoop [] rest
      else ChatMessage.mk .user (.parts pending) none none :: msg :: collectToolLoop [] rest := by
  cases hr : msg.role with
  | tool => exact absurd hr h
  | system => rw [collectToolLoop, hr]
  | user => rw [collectToolLoop, hr]
  | assistant => rw [collectToolLoop, hr]

/-- Every message produced by the tool-collecting pass of
`merge_adjacent_messages` is a user or assistant message, provided the input
contains no system messages. -/
theorem collectToolLoop_roles (msgs : List (ChatMessage α)) :
    ∀ pending, (∀ m ∈ msgs, m.role ≠ .system) →
      ∀ m ∈ collectToolLoop pending msgs, m.role = .user ∨ m.role = .assistant := by
  induction msgs with
  | nil =>
    intro pending _ m hm
    rw [collectToolLoop] at hm
    by_cases hp : pending.isEmpty = true
    · rw [if_pos hp] at hm; simp at hm
    · rw [if_neg hp] at hm
      simp at hm
      subst hm
      left; rfl
  | cons msg rest ih =>
    intro pending hroles m hm
    by_cases htool : msg.role = .tool
    · rw [collectToolLoop_cons_tool pending msg rest htool] at hm
      exact ih _ (fun x hx => hroles x (by simp [hx])) m hm
    · rw [collectToolLoop_cons_other pending msg rest htool] at hm
      have hmsg : msg.role = .user ∨ msg.role = .assistant := by
        have hns := hroles msg (by simp)
        cases hr : msg.role with
        | tool => exact absurd hr htool
        | system => exact absurd hr hns
        | user => left; rfl
        | assistant => right; rfl
      by_cases hp : pending.isEmpty = true
      · rw [if_pos hp] at hm
        rcases List.mem_cons.mp hm with rfl | hm2
        · exact hmsg
        · exact ih [] (fun x hx => hroles x (by simp [hx])) m hm2
      · rw [if_neg hp] at hm
        rcases List.mem_cons.mp hm with rfl | hm2
        · left; rfl
        · rcases List.mem_cons.mp hm2 with rfl | hm3
          · exact hmsg
          · exact ih [] (fun x hx => hroles x (by simp [hx])) m hm3

/-- The merging pass preserves the user/assistant role property. -/
theorem mergeLoop_roles (rest : List (ChatMessage α)) :
    ∀ last, (last.role = .user ∨ last.role = .assistant) →
      (∀ m ∈ rest, m.role = .user ∨ m.role = .assistant) →
      ∀ m ∈ mergeLoop last rest, m.role = .user ∨ m.role = .assistant := by
  induction rest with
  | nil =>
    intro last hlast _ m hm
    rw [mergeLoop] at hm
    simp at hm
    subst hm; exact hlast
  | cons msg rest ih =>
    intro last hlast hrest m hm
    rw [mergeLoop] at hm
    by_cases hsame : msg.role = last.role
    · rw [if_pos hsame] at hm
      exact ih (mergeTwo last msg) (by rw [mergeTwo_role]; exact hlast)
        (fun x hx => hrest x (by simp [hx])) m hm
    · rw [if_neg hsame] at hm
      rcases List.mem_cons.mp hm with rfl | hm2
      · exact hlast
      · exact ih msg (hrest msg (by simp)) (fun x hx => hrest x (by simp [hx])) m hm2

/-- Messages after `merge_adjacent_messages` are user or assistant turns when
the input has no system messages. -/
theorem merge_adjacent_roles (msgs : List (ChatMessage α))
    (h : ∀ m ∈ msgs, m.role ≠ .system) :
    ∀ m ∈ merge_adjacent_messages msgs, m.role = .user ∨ m.role = .assistant := by
  intro m hm
  rw [merge_adjacent_messages] at hm
  cases hc : collectToolResults msgs with
  | nil => rw [hc] at hm; simp at hm
  | cons first rest =>
    rw [hc] at hm
    have hall := collectToolLoop_roles msgs [] h
    rw [collectToolResults] at hc
    rw [hc] at hall
    exact mergeLoop_roles rest first (hall first (by simp))
      (fun x hx => hall x (by simp [hx])) m hm

/-- The tool-collecting pass never returns the empty list on non-empty
input. -/
theorem collectToolLoop_ne_nil (msg : ChatMessage α) (rest : List (ChatMessage α)) :
    ∀ pending, collectToolLoop pending (msg :: rest) ≠ [] := by
  induction rest generalizing msg with
  | nil =>
    intro pending
    by_cases htool : msg.role = .tool
    · rw [collectToolLoop_cons_tool pending msg [] htool, collectToolLoop]
      simp
    · rw [collectToolLoop_cons_other pending msg [] htool]
      by_cases hp : pending.isEmpty = true
      · rw [if_pos hp]; simp
      · rw [if_neg hp]; simp
  | cons msg2 rest2 ih =>
    intro pending
    by_cases htool : msg.role = .tool
    · rw [collectToolLoop_cons_tool pending msg (msg2 :: rest2) htool]
      exact ih msg2 _
    · rw [collectToolLoop_cons_other pending msg (msg2 :: rest2) htool]
      by_cases hp : pending.isEmpty = true
      · rw [if_pos hp]; simp
      · rw [if_neg hp]; simp

/-- `mergeLoop` never returns the empty list. -/
theorem mergeLoop_ne_nil (rest : List (ChatMessage α)) :
    ∀ last, mergeLoop last rest ≠ [] := by
  induction rest with
  | nil => intro last; rw [mergeLoop]; simp
  | cons msg rest ih =>
    intro last
    rw [mergeLoop]
    by_cases hsame : msg.role = last.role
    · rw [if_pos hsame]; exact ih (mergeTwo last msg)
    · rw [if_neg hsame]; simp

/-- `merge_adjacent_messages` of a non-empty list is non-empty. -/
theorem merge_adjacent_ne_nil (msg : ChatMessage α) (rest : List (ChatMessage α)) :
    merge_adjacent_messages (msg :: rest) ≠ [] := by
  rw [merge_adjacent_messages]
  cases hc : collectToolResults (msg :: rest) with
  | nil =>
    exact absurd hc (by rw [collectToolResults]; exact collectToolLoop_ne_nil msg rest [])
  | cons first rest2 => exact mergeLoop_ne_nil rest2 first

theorem histEntriesOf_length (p : Str → α) (mid : Str) (m : ChatMessage α)
    (h : m.role = .user ∨ m.role = .assistant) :
    (histEntriesOf p mid m).length = 1 := by
  rcases h with h | h <;> rw [histEntriesOf, h] <;> rfl

/-- With only user/assistant messages, each message maps to exactly one
history entry. -/
theorem build_kiro_history_length (p : Str → α) (mid : Str) :
    ∀ msgs : List (ChatMessage α),
      (∀ m ∈ msgs, m.role = .user ∨ m.role = .assistant) →
      (build_kiro_history p msgs mid).length = msgs.length := by
  intro msgs h
  induction msgs with
  | nil => rfl
  | cons m rest ih =>
    simp only [build_kiro_history, List.map_cons, List.flatten_cons, List.length_append,
      List.length_cons]
    rw [histEntriesOf_length p mid m (h m (by simp))]
    have := ih (fun x hx => h x (by simp [hx]))
    rw [build_kiro_history] at this
    omega

theorem histEntriesOf_user_str (p : Str → α) (mid S : Str) (tc : Option Str)
    (tcs : Option (List ToolCallRec)) :
    histEntriesOf p mid (ChatMessage.mk .user (.str S) tc tcs) =
      [HistEntry.userInput S mid []] := by
  simp [histEntriesOf, extract_text_content, extract_images_from_content, extractToolResults]

/-- The current-message fallback: the final content is never empty. -/
theorem continueFallback_ne_nil (s : Str) :
    (if s = [] then "Continue".toList else s) ≠ [] := by
  split
  · simp
  · assumption

/-- C9 (counterexample): a request whose only message is a system message is
rejected with `ValueError("没有可发送的消息")`, not turned into a payload. -/
theorem c9_counterexample :
    build_kiro_payload (α := Unit) (fun _ => ()) 4096
        [ChatMessage.mk .system (.str "x".toList) none none]
        none .nothing "conv".toList [] "m".toList =
      .error "没有可发送的消息".toList := by
  decide

/-- C9 (amended): every request that still contains at least one non-system
message — in particular one whose messages are all tool results — builds a
payload without error, and its current-message content is never empty (falling
back to the literal `"Continue"`); a request with only tool-result messages
gets exactly the `"Continue"` content with the tool results attached.
Requests whose messages are all system messages are instead rejected with
`ValueError`. -/
theorem c9_payload_fallback :
    (∀ (parseArgs : Str → α) (maxLen : Int) (msgs : List (ChatMessage α))
        (tools : Option (List (Tool α))) (cfg : ThinkingConfig) (cid parn mid : Str),
      (∃ m ∈ msgs, m.role ≠ Role.system) →
      ∃ p, build_kiro_payload parseArgs maxLen msgs tools cfg cid parn mid = .ok p
        ∧ p.currentContent ≠ [])
    ∧ build_kiro_payload (α := Unit) (fun _ => ()) 4096
        [ChatMessage.mk .tool (.str "result text".toList) (some "tu1".toList) none]
        none .nothing "conv".toList [] "model-id".toList =
      .ok (KiroPayload.mk "conv".toList "Continue".toList [] []
        [KiroToolResult.mk "result text".toList "tu1".toList] [] []) := by
  constructor
  · intro parseArgs maxLen msgs tools cfg cid parn mid hex
    obtain ⟨m, hmem, hrole⟩ := hex
    have hfileq : (extractSystemAndToolDocs maxLen msgs tools).2.1 =
        msgs.filter (fun m => ¬ m.role = .system) := rfl
    have hfil : (extractSystemAndToolDocs maxLen msgs tools).2.1 ≠ [] := by
      rw [hfileq]
      have : m ∈ msgs.filter (fun m => ¬ m.role = .system) := by
        simp [List.mem_filter, hmem, hrole]
      exact List.ne_nil_of_mem this
    cases hf : (extractSystemAndToolDocs maxLen msgs tools).2.1 with
    | nil => exact absurd hf hfil
    | cons f0 frest =>
      have hmne : merge_adjacent_messages
          ((extractSystemAndToolDocs maxLen msgs tools).2.1) ≠ [] := by
        rw [hf]; exact merge_adjacent_ne_nil f0 frest
      cases hm : merge_adjacent_messages
          ((extractSystemAndToolDocs maxLen msgs tools).2.1) with
      | nil => exact absurd hm hmne
      | cons first restMerged =>
        simp only [build_kiro_payload]
        rw [hm]
        exact ⟨_, rfl, continueFallback_ne_nil _⟩
  · decide

/-- C9 witness: a request with one empty user message yields a payload whose
content is non-empty. -/
theorem c9_payload_fallback_witness :
    ∃ p, build_kiro_payload (α := Unit) (fun _ => ()) 4096
        [ChatMessage.mk .user (.str []) none none]
        none .nothing "conv".toList [] "m".toList = .ok p
      ∧ p.currentContent ≠ [] :=
  (c9_payload_fallback (α := Unit)).1 (fun _ => ()) 4096
    [ChatMessage.mk .user (.str []) none none]
    none .nothing "conv".toList [] "m".toList
    ⟨ChatMessage.mk .user (.str []) none none, by simp, by decide⟩

/-- C1 (counterexample): for the Anthropic scenario request (system
`"You are helpful"`, single user message `"Hi"`, no thinking), the builder
produces no history at all — no synthetic user/assistant pair and no chunking
policy — and folds the system text into the current message, whose content is
`"You are helpful\n\nHi"`, not `"Hi"`. -/
theorem c1_counterexample :
    build_kiro_payload (α := Unit) (fun _ => ()) 4096
        [ChatMessage.mk .system (.str "You are helpful".toList) none none,
         ChatMessage.mk .user (.str "Hi".toList) none none]
        none .nothing "conv".toList [] "model-id".toList =
      .ok (KiroPayload.mk "conv".toList "You are helpful\n\nHi".toList [] [] [] [] [])
    ∧ (KiroPayload.mk (α := Unit) "conv".toList "You are helpful\n\nHi".toList
        [] [] [] [] []).history.length = 0
    ∧ (KiroPayload.mk (α := Unit) "conv".toList "You are helpful\n\nHi".toList
        [] [] [] [] []).currentContent ≠ "Hi".toList := by
  refine ⟨by decide, rfl, by decide⟩

/-- The base history has exactly one entry per history message. -/
theorem baseHistory_length (p : Str → α) (sys : Str) (first : ChatMessage α)
    (restMerged : List (ChatMessage α)) (mid : Str)
    (hroles : ∀ m ∈ first :: restMerged, m.role = .user ∨ m.role = .assistant) :
    (baseHistory p sys first restMerged mid).length = restMerged.length := by
  rw [baseHistory]
  cases hdl : (first :: restMerged).dropLast with
  | nil =>
    have h0 : restMerged.length = 0 := by
      have h := congrArg List.length hdl
      simpa using h
    rw [mutateFirstHistoryMsg]
    simp [build_kiro_history, h0]
  | cons f r =>
    have hsub : ∀ x ∈ f :: r, x.role = .user ∨ x.role = .assistant := by
      intro x hx
      exact hroles x ((List.dropLast_prefix (first :: restMerged)).subset (hdl ▸ hx))
    have hlen : (f :: r).length = restMerged.length := by
      have h := congrArg List.length hdl
      simpa using h.symm
    rw [mutateFirstHistoryMsg]
    split
    · rw [build_kiro_history_length]
      · exact hlen
      · intro x hx
        rcases List.mem_cons.mp hx with rfl | hx2
        · exact hsub f (by simp)
        · exact hsub x (by simp [hx2])
    · rw [build_kiro_history_length _ _ _ hsub]
      exact hlen

/-- When the history starts with a user message and system text exists, the
first history entry carries `{system}\n\n{text}`. -/
theorem baseHistory_head (p : Str → α) (sys : Str) (first firstMsg : ChatMessage α)
    (restMerged restH : List (ChatMessage α)) (mid : Str)
    (hdl : (first :: restMerged).dropLast = firstMsg :: restH)
    (hrole : firstMsg.role = .user) (hsys : sys ≠ []) :
    baseHistory p sys first restMerged mid =
      HistEntry.userInput (sys ++ "\n\n".toList ++ extract_text_content firstMsg.content)
        mid [] :: build_kiro_history p restH mid := by
  rw [baseHistory, hdl, mutateFirstHistoryMsg, if_pos ⟨hsys, hrole⟩]
  simp only [build_kiro_history, List.map_cons, List.flatten_cons]
  rw [hrole, histEntriesOf_user_str]
  rfl

theorem finalCurrentContent_ne_nil (p : Str → α) (sys : Str) (first : ChatMessage α)
    (restMerged : List (ChatMessage α)) (mid : Str) :
    finalCurrentContent p sys first restMerged mid ≠ [] := by
  rw [finalCurrentContent]
  exact continueFallback_ne_nil _

/-- C1 (amended): the payload builder never fabricates history turns: the
history has exactly one entry per merged history message (plus the final
assistant message when there is one), so no synthetic user/assistant pair and
no chunking-policy literal are prepended.  System text is handled instead by
prepending `{system}\n\n` to the first history message's content when history
exists and starts with a user turn, and to the current message's content when
the history is empty. -/
theorem c1_system_injection (parseArgs : Str → α) (maxLen : Int)
    (msgs : List (ChatMessage α)) (tools : Option (List (Tool α)))
    (cfg : ThinkingConfig) (cid parn mid : Str)
    (first : ChatMessage α) (restMerged : List (ChatMessage α))
    (hm : merge_adjacent_messages (extractSystemAndToolDocs maxLen msgs tools).2.1
        = first :: restMerged)
    (hsys : inject_thinking_hint (extractSystemAndToolDocs maxLen msgs tools).1 cfg ≠ []) :
    ∃ p, build_kiro_payload parseArgs maxLen msgs tools cfg cid parn mid = .ok p
      ∧ p.history.length = restMerged.length +
          (if (currentMsg first restMerged).role = .assistant then 1 else 0)
      ∧ (∀ firstMsg restH, (first :: restMerged).dropLast = firstMsg :: restH →
          firstMsg.role = .user →
          p.history.head? = some (HistEntry.userInput
            (inject_thinking_hint (extractSystemAndToolDocs maxLen msgs tools).1 cfg
              ++ "\n\n".toList ++ extract_text_content firstMsg.content) mid []))
      ∧ ((first :: restMerged).dropLast = [] →
          (currentMsg first restMerged).role ≠ .assistant →
          p.currentContent =
            inject_thinking_hint (extractSystemAndToolDocs maxLen msgs tools).1 cfg
              ++ "\n\n".toList ++ extract_text_content (currentMsg first restMerged).content) := by
  have hfilRoles : ∀ m ∈ (extractSystemAndToolDocs maxLen msgs tools).2.1,
      m.role ≠ Role.system := by
    intro m hmem
    have heq : (extractSystemAndToolDocs maxLen msgs tools).2.1 =
        msgs.filter (fun m => ¬ m.role = .system) := rfl
    rw [heq] at hmem
    have := (List.mem_filter.mp hmem).2
    simpa using this
  have hroles := merge_adjacent_roles _ hfilRoles
  rw [hm] at hroles
  simp only [build_kiro_payload]
  rw [hm]
  refine ⟨_, rfl, ?_, ?_, ?_⟩
  · -- history length
    show (finalHistory parseArgs _ first restMerged mid).length = _
    rw [finalHistory]
    split
    · simp [baseHistory_length _ _ _ _ _ hroles]
    · simp [baseHistory_length _ _ _ _ _ hroles]
  · -- head of history when it starts with a user message
    intro firstMsg restH hdl hrole
    show (finalHistory parseArgs _ first restMerged mid).head? = _
    rw [finalHistory]
    split
    · rw [baseHistory_head parseArgs _ first firstMsg restMerged restH mid hdl hrole hsys]
      simp
    · rw [baseHistory_head parseArgs _ first firstMsg restMerged restH mid hdl hrole hsys]
      simp
  · -- current content when history is empty
    intro hdl hnotassistant
    have hbase : baseHistory parseArgs
        (inject_thinking_hint (extractSystemAndToolDocs maxLen msgs tools).1 cfg)
        first restMerged mid = [] := by
      rw [baseHistory, hdl, mutateFirstHistoryMsg]
      rfl
    have hcc1 : currentContent1 parseArgs
        (inject_thinking_hint (extractSystemAndToolDocs maxLen msgs tools).1 cfg)
        first restMerged mid =
        inject_thinking_hint (extractSystemAndToolDocs maxLen msgs tools).1 cfg
          ++ "\n\n".toList ++ extract_text_content (currentMsg first restMerged).content := by
      rw [currentContent1]
      have hcond : inject_thinking_hint (extractSystemAndToolDocs maxLen msgs tools).1 cfg ≠ []
          ∧ (baseHistory parseArgs
              (inject_thinking_hint (extractSystemAndToolDocs maxLen msgs tools).1 cfg)
              first restMerged mid).isEmpty = true := ⟨hsys, by rw [hbase]; rfl⟩
      rw [if_pos hcond]
    show finalCurrentContent parseArgs _ first restMerged mid = _
    simp only [finalCurrentContent]
    rw [if_neg hnotassistant, hcc1, if_neg]
    simp [hsys]

/-- C1 witness: the amended statement instantiated on a request with system
text, one user history turn, and one current user turn. -/
theorem c1_system_injection_witness :
    ∃ p, build_kiro_payload (α := Unit) (fun _ => ()) 4096
        [ChatMessage.mk .system (.str "sys".toList) none none,
         ChatMessage.mk .user (.str "first".toList) none none,
         ChatMessage.mk .assistant (.str "reply".toList) none none,
         ChatMessage.mk .user (.str "second".toList) none none]
        none .nothing "conv".toList [] "m".toList = .ok p
      ∧ p.history.length = 2 + (if (currentMsg
          (ChatMessage.mk (α := Unit) .user (.str "first".toList) none none)
          [ChatMessage.mk .assistant (.str "reply".toList) none none,
           ChatMessage.mk .user (.str "second".toList) none none]).role = .assistant
          then 1 else 0)
      ∧ (∀ firstMsg restH,
          ([ChatMessage.mk (α := Unit) .user (.str "first".toList) none none,
            ChatMessage.mk .assistant (.str "reply".toList) none none,
            ChatMessage.mk .user (.str "second".toList) none none]).dropLast
            = firstMsg :: restH →
          firstMsg.role = .user →
          p.history.head? = some (HistEntry.userInput
            (inject_thinking_hint (extractSystemAndToolDocs 4096
                [ChatMessage.mk (α := Unit) .system (.str "sys".toList) none none,
                 ChatMessage.mk .user (.str "first".toList) none none,
                 ChatMessage.mk .assistant (.str "reply".toList) none none,
                 ChatMessage.mk .user (.str "second".toList) none none] none).1 .nothing
              ++ "\n\n".toList ++ extract_text_content firstMsg.content) "m".toList []))
      ∧ (([ChatMessage.mk (α := Unit) .user (.str "first".toList) none none,
            ChatMessage.mk .assistant (.str "reply".toList) none none,
            ChatMessage.mk .user (.str "second".toList) none none]).dropLast = [] →
          (currentMsg (ChatMessage.mk (α := Unit) .user (.str "first".toList) none none)
            [ChatMessage.mk .assistant (.str "reply".toList) none none,
             ChatMessage.mk .user (.str "second".toList) none none]).role ≠ .assistant →
          p.currentContent =
            inject_thinking_hint (extractSystemAndToolDocs 4096
                [ChatMessage.mk (α := Unit) .system (.str "sys".toList) none none,
                 ChatMessage.mk .user (.str "first".toList) none none,
                 ChatMessage.mk .assistant (.str "reply".toList) none none,
                 ChatMessage.mk .user (.str "second".toList) none none] none).1 .nothing
              ++ "\n\n".toList ++ extract_text_content (currentMsg
                (ChatMessage.mk (α := Unit) .user (.str "first".toList) none none)
                [ChatMessage.mk .assistant (.str "reply".toList) none none,
                 ChatMessage.mk .user (.str "second".toList) none none]).content) :=
  c1_system_injection (fun _ => ()) 4096
    [ChatMessage.mk .system (.str "sys".toList) none none,
     ChatMessage.mk .user (.str "first".toList) none none,
     ChatMessage.mk .assistant (.str "reply".toList) none none,
     ChatMessage.mk .user (.str "second".toList) none none]
    none .nothing "conv".toList [] "m".toList
    (ChatMessage.mk .user (.str "first".toList) none none)
    [ChatMessage.mk .assistant (.str "reply".toList) none none,
     ChatMessage.mk .user (.str "second".toList) none none]
    (by decide) (by decide)

end ConvertersLemmas

end KiroGate

namespace KiroGate

/-! ## Thinking-tag stream handler (src/kiro_gateway/streaming.py, lines 54-231)

`ThinkingStreamHandler` is a two-state machine over a character buffer.  Its
`process_content` loop is embedded as `processBuf`, a recursion that consumes
one complete tag per step; the Python `while` loop iterates exactly these
steps and stops when an iteration produces no events, which happens precisely
when the remaining buffer is a proper prefix of the awaited tag. -/

/-- The events `process_content` returns:
`{"type": "text"|"thinking", "action": "start"|"delta"|"stop", "content": s}`. -/
inductive ThinkEv where
  | textDelta (s : Str)
  | thinkStart
  | thinkDelta (s : Str)
  | thinkStop
deriving DecidableEq

def THINKING_START_TAG : Str := "<thinking>".toList
def THINKING_END_TAG : Str := "</thinking>".toList

/-- The loop body of `_pending_tag_suffix`: try lengths from `l` down to 1. -/
def pendDown (buffer tag : Str) : Nat → Nat
  | 0 => 0
  | l + 1 =>
    if buffer.drop (buffer.length - (l + 1)) = tag.take (l + 1) then l + 1
    else pendDown buffer tag l

/-- `_pending_tag_suffix` from streaming.py: the longest proper prefix of
`tag` that the buffer ends with. -/
def pendingTagSuffix (buffer tag : Str) : Nat :=
  pendDown buffer tag (min buffer.length (tag.length - 1))

/-- The `process_content` loop of `ThinkingStreamHandler`, with explicit fuel
(each step consumes one complete tag of length ≥ 10, so `buf.length` steps
always suffice; `processBufGo_congr` below shows the fuel is irrelevant once
sufficient): in text mode scan for `<thinking>`, in thinking mode for
`</thinking>`; on a hit emit the preceding text and the start/stop marker and
continue past the tag, otherwise emit everything but a trailing partial tag
and keep that partial tag buffered.  Returns (mode, remaining buffer,
events). -/
def processBufGo : Nat → Bool → Str → Bool × Str × List ThinkEv
  | 0, inTh, buf => (inTh, buf, [])
  | fuel + 1, false, buf =>
    match findTag THINKING_START_TAG buf with
    | some i =>
      let rest := processBufGo fuel true (buf.drop (i + THINKING_START_TAG.length))
      (rest.1, rest.2.1,
        (if 0 < i then [ThinkEv.textDelta (buf.take i)] else [])
          ++ ThinkEv.thinkStart :: rest.2.2)
    | none =>
      let p := pendingTagSuffix buf THINKING_START_TAG
      let k := buf.length - p
      (false, buf.drop k, if 0 < k then [ThinkEv.textDelta (buf.take k)] else [])
  | fuel + 1, true, buf =>
    match findTag THINKING_END_TAG buf with
    | some i =>
      let rest := processBufGo fuel false (buf.drop (i + THINKING_END_TAG.length))
      (rest.1, rest.2.1,
        (if 0 < i then [ThinkEv.thinkDelta (buf.take i)] else [])
          ++ ThinkEv.thinkStop :: rest.2.2)
    | none =>
      let p := pendingTagSuffix buf THINKING_END_TAG
      let k := buf.length - p
      (true, buf.drop k, if 0 < k then [ThinkEv.thinkDelta (buf.take k)] else [])

theorem processBufGo_succ_nil (fuel : Nat) (inTh : Bool) :
    processBufGo (fuel + 1) inTh [] = (inTh, [], []) := by
  cases inTh <;> rfl

/-- With at least `buf.length` fuel, the result does not depend on the fuel:
the loop consumes one complete tag (ten or more characters) per step. -/
theorem processBufGo_congr : ∀ f1 f2 inTh buf, buf.length ≤ f1 → buf.length ≤ f2 →
    processBufGo f1 inTh buf = processBufGo f2 inTh buf := by
  intro f1
  induction f1 with
  | zero =>
    intro f2 inTh buf h1 _
    have hb : buf = [] := List.eq_nil_of_length_eq_zero (by omega)
    subst hb
    cases f2 with
    | zero => rfl
    | succ g => rw [processBufGo_succ_nil]; rfl
  | succ g1 ih =>
    intro f2 inTh buf h1 h2
    cases f2 with
    | zero =>
      have hb : buf = [] := List.eq_nil_of_length_eq_zero (by omega)
      subst hb
      rw [processBufGo_succ_nil]
      rfl
    | succ g2 =>
      cases inTh with
      | false =>
        rw [processBufGo, processBufGo]
        cases hf : findTag THINKING_START_TAG buf with
        | none => rfl
        | some i =>
          have hb := findTag_add_length_le hf
          have hlen : (buf.drop (i + THINKING_START_TAG.length)).length
              ≤ g1 ∧ (buf.drop (i + THINKING_START_TAG.length)).length ≤ g2 := by
            constructor <;>
              · rw [List.length_drop]
                have : (10 : Nat) ≤ i + THINKING_START_TAG.length := by
                  have : THINKING_START_TAG.length = 10 := by decide
                  omega
                omega
          dsimp only
          rw [ih g2 true _ hlen.1 hlen.2]
      | true =>
        rw [processBufGo, processBufGo]
        cases hf : findTag THINKING_END_TAG buf with
        | none => rfl
        | some i =>
          have hb := findTag_add_length_le hf
          have hlen : (buf.drop (i + THINKING_END_TAG.length)).length
              ≤ g1 ∧ (buf.drop (i + THINKING_END_TAG.length)).length ≤ g2 := by
            constructor <;>
              · rw [List.length_drop]
                have : (11 : Nat) ≤ i + THINKING_END_TAG.length := by
                  have : THINKING_END_TAG.length = 11 := by decide
                  omega
                omega
          dsimp only
          rw [ih g2 false _ hlen.1 hlen.2]

/-- `processBuf inTh buf`: the loop run to completion. -/
def processBuf (inTh : Bool) (buf : Str) : Bool × Str × List ThinkEv :=
  processBufGo buf.length inTh buf

/-- Unfolding `processBuf` in text mode on a found start tag. -/
theorem processBuf_false_some {buf : Str} {i : Nat}
    (h : findTag THINKING_START_TAG buf = some i) :
    processBuf false buf =
      ((processBuf true (buf.drop (i + THINKING_START_TAG.length))).1,
       (processBuf true (buf.drop (i + THINKING_START_TAG.length))).2.1,
       (if 0 < i then [ThinkEv.textDelta (buf.take i)] else [])
         ++ ThinkEv.thinkStart
           :: (processBuf true (buf.drop (i + THINKING_START_TAG.length))).2.2) := by
  have hb := findTag_add_length_le h
  have hpos : ∃ m, buf.length = m + 1 := by
    refine ⟨buf.length - 1, ?_⟩
    have : THINKING_START_TAG.length = 10 := by decide
    omega
  obtain ⟨m, hm⟩ := hpos
  rw [processBuf, hm, processBufGo, h]
  dsimp only
  have : processBufGo m true (buf.drop (i + THINKING_START_TAG.length)) =
      processBuf true (buf.drop (i + THINKING_START_TAG.length)) := by
    rw [processBuf]
    apply processBufGo_congr
    · rw [List.length_drop]
      have : THINKING_START_TAG.length = 10 := by decide
      omega
    · exact le_refl _
  rw [this]

/-- Unfolding `processBuf` in text mode with no start tag. -/
theorem processBuf_false_none {buf : Str}
    (h : findTag THINKING_START_TAG buf = none) :
    processBuf false buf =
      (false, buf.drop (buf.length - pendingTagSuffix buf THINKING_START_TAG),
        if 0 < buf.length - pendingTagSuffix buf THINKING_START_TAG then
          [ThinkEv.textDelta (buf.take (buf.length - pendingTagSuffix buf THINKING_START_TAG))]
        else []) := by
  rw [processBuf]
  cases hl : buf.length with
  | zero =>
    have hb : buf = [] := List.eq_nil_of_length_eq_zero hl
    subst hb
    rfl
  | succ m =>
    rw [processBufGo, h]
    dsimp only
    rw [hl]

/-- Unfolding `processBuf` in thinking mode on a found end tag. -/
theorem processBuf_true_some {buf : Str} {i : Nat}
    (h : findTag THINKING_END_TAG buf = some i) :
    processBuf true buf =
      ((processBuf false (buf.drop (i + THINKING_END_TAG.length))).1,
       (processBuf false (buf.drop (i + THINKING_END_TAG.length))).2.1,
       (if 0 < i then [ThinkEv.thinkDelta (buf.take i)] else [])
         ++ ThinkEv.thinkStop
           :: (processBuf false (buf.drop (i + THINKING_END_TAG.length))).2.2) := by
  have hb := findTag_add_length_le h
  have hpos : ∃ m, buf.length = m + 1 := by
    refine ⟨buf.length - 1, ?_⟩
    have : THINKING_END_TAG.length = 11 := by decide
    omega
  obtain ⟨m, hm⟩ := hpos
  rw [processBuf, hm, processBufGo, h]
  dsimp only
  have : processBufGo m false (buf.drop (i + THINKING_END_TAG.length)) =
      processBuf false (buf.drop (i + THINKING_END_TAG.length)) := by
    rw [processBuf]
    apply processBufGo_congr
    · rw [List.length_drop]
      have : THINKING_END_TAG.length = 11 := by decide
      omega
    · exact le_refl _
  rw [this]

/-- Unfolding `processBuf` in thinking mode with no end tag. -/
theorem processBuf_true_none {buf : Str}
    (h : findTag THINKING_END_TAG buf = none) :
    processBuf true buf =
      (true, buf.drop (buf.length - pendingTagSuffix buf THINKING_END_TAG),
        if 0 < buf.length - pendingTagSuffix buf THINKING_END_TAG then
          [ThinkEv.thinkDelta (buf.take (buf.length - pendingTagSuffix buf THINKING_END_TAG))]
        else []) := by
  rw [processBuf]
  cases hl : buf.length with
  | zero =>
    have hb : buf = [] := List.eq_nil_of_length_eq_zero hl
    subst hb
    rfl
  | succ m =>
    rw [processBufGo, h]
    dsimp only
    rw [hl]

/-- The handler state: `in_thinking_block` and `thinking_buffer`. -/
abbrev HandlerState := Bool × Str

/-- `ThinkingStreamHandler.process_content`: with thinking disabled the
content is passed through as one text delta; otherwise the buffer is extended
and scanned. -/
def process_content (thinkingEnabled : Bool) (st : HandlerState) (content : Str) :
    HandlerState × List ThinkEv :=
  if thinkingEnabled = false then (st, [ThinkEv.textDelta content])
  else
    let r := processBuf st.1 (st.2 ++ content)
    ((r.1, r.2.1), r.2.2)

/-- `ThinkingStreamHandler.flush`: the remaining buffer becomes one delta in
the current mode. -/
def handlerFlush (st : HandlerState) : List ThinkEv :=
  if st.2 = [] then []
  else if st.1 then [ThinkEv.thinkDelta st.2] else [ThinkEv.textDelta st.2]

end KiroGate

namespace KiroGate

/-! ## Anthropic SSE assembly
(src/kiro_gateway/streaming.py, lines 893-1232, and
src/kiro_gateway/buffered_streaming.py)

Both the standard generator `stream_kiro_to_anthropic` and
`BufferedAnthropicStreamHandler` turn handler events into content blocks with
the same state machine (index counter plus text/thinking open flags); the
embedding shares it.  The upstream `AwsEventStreamParser` lives outside `src`,
so the generators консume its output: a list of parsed upstream items, with
`readError` standing for an exception raised while reading the stream (for
example the fourth consecutive read timeout).  Tool calls
(`parser.get_tool_calls() + bracket calls, deduplicated`) enter as a list, and
the tokenizer is a function parameter. -/

/-- Content-block kinds of `content_block_start`. -/
inductive BlockKind where
  | text
  | thinking
  | toolUse (id name : Str)
deriving DecidableEq

/-- `content_block_delta` payloads. -/
inductive DeltaBody where
  | textDelta (s : Str)
  | thinkingDelta (s : Str)
  | inputJsonDelta (partialJson : Str)
deriving DecidableEq

/-- The Anthropic SSE events the generators emit. -/
inductive SSE where
  | messageStart (inputTokens : Nat)
  | blockStart (index : Nat) (kind : BlockKind)
  | blockDelta (index : Nat) (body : DeltaBody)
  | blockStop (index : Nat)
  | messageDelta (stopReason : Str) (outputTokens : Nat)
  | messageStop
  | ping
  | errorEvt (message : Str)
deriving DecidableEq

/-- Parsed upstream items as the event-stream parser yields them. -/
inductive UpstreamItem where
  | content (s : Str)
  | usage (credits : Nat)
  | contextUsage (percent : ℚ)
  | readError (message : Str)
deriving DecidableEq

/-- One assembled upstream tool call (`hasInput` is the truthiness of the
parsed input dict, `inputJson` its serialization). -/
structure ToolCallEv where
  id : Str
  name : Str
  hasInput : Bool
  inputJson : Str
deriving DecidableEq

/-- The block-emission state both generators keep:
`content_block_index`, `text_block_started`, `thinking_block_started`. -/
structure BlockState where
  index : Nat
  textStarted : Bool
  thinkingStarted : Bool
deriving DecidableEq

/-- Processing one handler event into SSE block events (shared verbatim by
streaming.py lines 1017-1080 and buffered_streaming.py `_process_thinking_event`
/`_process_text_event`). -/
def emitThinkEv (bs : BlockState) : ThinkEv → BlockState × List SSE
  | .thinkStart =>
    if bs.textStarted then
      (BlockState.mk (bs.index + 1) false true,
        [SSE.blockStop bs.index, SSE.blockStart (bs.index + 1) .thinking])
    else
      (BlockState.mk bs.index bs.textStarted true, [SSE.blockStart bs.index .thinking])
  | .thinkDelta s =>
    if s ≠ [] ∧ bs.thinkingStarted then
      (bs, [SSE.blockDelta bs.index (.thinkingDelta s)])
    else (bs, [])
  | .thinkStop =>
    if bs.thinkingStarted then
      (BlockState.mk (bs.index + 1) bs.textStarted false, [SSE.blockStop bs.index])
    else (bs, [])
  | .textDelta s =>
    if s = [] then (bs, [])
    else if bs.textStarted then (bs, [SSE.blockDelta bs.index (.textDelta s)])
    else (BlockState.mk bs.index true bs.thinkingStarted,
      [SSE.blockStart bs.index .text, SSE.blockDelta bs.index (.textDelta s)])

def emitThinkEvs (bs : BlockState) : List ThinkEv → BlockState × List SSE
  | [] => (bs, [])
  | te :: rest =>
    let r1 := emitThinkEv bs te
    let r2 := emitThinkEvs r1.1 rest
    (r2.1, r1.2 ++ r2.2)

/-- Closing any open thinking then text block at end of stream. -/
def closeBlocks (bs : BlockState) : BlockState × List SSE :=
  let r1 :=
    if bs.thinkingStarted then
      (BlockState.mk (bs.index + 1) bs.textStarted false, [SSE.blockStop bs.index])
    else (bs, ([] : List SSE))
  let r2 :=
    if r1.1.textStarted then
      (BlockState.mk (r1.1.index + 1) false r1.1.thinkingStarted, [SSE.blockStop r1.1.index])
    else (r1.1, ([] : List SSE))
  (r2.1, r1.2 ++ r2.2)

/-- The `tool_use` blocks appended after the stream ends. -/
def emitToolBlocks (idx : Nat) : List ToolCallEv → List SSE
  | [] => []
  | tc :: rest =>
    SSE.blockStart idx (.toolUse tc.id tc.name)
      :: ((if tc.hasInput then [SSE.blockDelta idx (.inputJsonDelta tc.inputJson)] else [])
        ++ SSE.blockStop idx :: emitToolBlocks (idx + 1) rest)

/-- Everything the upstream-consumption loop accumulates. -/
structure ConsumeResult where
  thinkState : HandlerState
  blockState : BlockState
  ctxUsage : Option ℚ
  fullContent : Str
  events : List SSE
  abortedMsg : Option Str
deriving DecidableEq

/-- The read loop of both generators: each content item runs through the
thinking handler and the block state machine; `usage` is recorded,
`context_usage` overwrites the percentage; a read error aborts the loop. -/
def consumeItems (thinkingEnabled : Bool) (st : HandlerState) (bs : BlockState)
    (ctx : Option ℚ) (contentAcc : Str) : List UpstreamItem → ConsumeResult
  | [] => ConsumeResult.mk st bs ctx contentAcc [] none
  | item :: rest =>
    match item with
    | .content s =>
      let r1 := process_content thinkingEnabled st s
      let r2 := emitThinkEvs bs r1.2
      let r := consumeItems thinkingEnabled r1.1 r2.1 ctx (contentAcc ++ s) rest
      ConsumeResult.mk r.thinkState r.blockState r.ctxUsage r.fullContent
        (r2.2 ++ r.events) r.abortedMsg
    | .usage _ => consumeItems thinkingEnabled st bs ctx contentAcc rest
    | .contextUsage q => consumeItems thinkingEnabled st bs (some q) contentAcc rest
    | .readError msg => ConsumeResult.mk st bs ctx contentAcc [] (some msg)

/-- The tail both generators emit after the upstream completes: flush the
thinking handler, close open blocks, append tool blocks, then `message_delta`
(with the locally counted output tokens and the tool-dependent stop reason)
and `message_stop`. -/
def finalizeTail (r : ConsumeResult) (toolCalls : List ToolCallEv)
    (tok : Str → Nat) : List SSE :=
  let s1 := emitThinkEvs r.blockState (handlerFlush r.thinkState)
  let s2 := closeBlocks s1.1
  let s3 := emitToolBlocks s2.1.index toolCalls
  let stopReason := if toolCalls.isEmpty then "end_turn".toList else "tool_use".toList
  s1.2 ++ s2.2 ++ s3
    ++ [SSE.messageDelta stopReason (tok r.fullContent), SSE.messageStop]

/-- `stream_kiro_to_anthropic` from streaming.py: `message_start` carries the
locally pre-calculated input tokens; a mid-stream exception yields one
`event: error` and ends the stream without closing blocks. -/
def stream_kiro_to_anthropic (thinkingEnabled : Bool) (items : List UpstreamItem)
    (toolCalls : List ToolCallEv) (preInputTokens : Nat) (tok : Str → Nat) : List SSE :=
  let r := consumeItems thinkingEnabled (false, []) (BlockState.mk 0 false false) none [] items
  SSE.messageStart preInputTokens ::
    (r.events ++
      match r.abortedMsg with
      | some msg => [SSE.errorEvt msg]
      | none => finalizeTail r toolCalls tok)

/-- The accurate input-token computation of `_finalize_events`:
`int((percentage / 100) * max_input_tokens)` when a positive percentage
arrived, else the local tokenizer fallback.  Python `int()` truncates. -/
def accurateInputTokens (ctx : Option ℚ) (maxInputTokens fallbackTokens : Nat) : Nat :=
  match ctx with
  | some q =>
    if q > 0 then (Int.floor (q / 100 * (maxInputTokens : ℚ))).toNat
    else fallbackTokens
  | none => fallbackTokens

/-- `stream_kiro_to_anthropic_buffered` from buffered_streaming.py: pings
while the background task runs (`pings` counts them); if the task raised, a
single error event and nothing else; otherwise a `message_start` carrying the
accurate input tokens followed by the buffered events, which end with
`message_delta` and `message_stop`. -/
def stream_kiro_to_anthropic_buffered (thinkingEnabled : Bool)
    (items : List UpstreamItem) (toolCalls : List ToolCallEv)
    (maxInputTokens fallbackTokens : Nat) (tok : Str → Nat) (pings : Nat) : List SSE :=
  let r := consumeItems thinkingEnabled (false, []) (BlockState.mk 0 false false) none [] items
  List.replicate pings SSE.ping ++
    match r.abortedMsg with
    | some msg => [SSE.errorEvt msg]
    | none =>
      SSE.messageStart (accurateInputTokens r.ctxUsage maxInputTokens fallbackTokens)
        :: (r.events ++ finalizeTail r toolCalls tok)

end KiroGate

namespace KiroGate

/-! ## Well-formedness of handler event streams

`processBuf` alternates `thinkStart`/`thinkStop` markers and only emits deltas
of the current mode; `wfFrom m evs` returns the final mode when `evs` follows
that grammar starting in mode `m`. -/

def wfFrom : Bool → List ThinkEv → Option Bool
  | m, [] => some m
  | false, .textDelta _ :: r => wfFrom false r
  | false, .thinkStart :: r => wfFrom true r
  | true, .thinkDelta _ :: r => wfFrom true r
  | true, .thinkStop :: r => wfFrom false r
  | _, _ :: _ => none

theorem wfFrom_append (a : List ThinkEv) :
    ∀ m b, wfFrom m (a ++ b) = (wfFrom m a).bind (fun m2 => wfFrom m2 b) := by
  induction a with
  | nil => intro m b; simp [wfFrom]
  | cons e rest ih =>
    intro m b
    cases m <;> cases e <;> simp [wfFrom, ih]

theorem processBuf_wf : ∀ n buf inTh, buf.length ≤ n →
    wfFrom inTh (processBuf inTh buf).2.2 = some (processBuf inTh buf).1 := by
  intro n
  induction n with
  | zero =>
    intro buf inTh h
    have hb : buf = [] := List.eq_nil_of_length_eq_zero (by omega)
    subst hb
    cases inTh <;> rfl
  | succ n ih =>
    intro buf inTh h
    cases inTh with
    | false =>
      cases hf : findTag THINKING_START_TAG buf with
      | some i =>
        rw [processBuf_false_some hf]
        have hdrop : (buf.drop (i + THINKING_START_TAG.length)).length ≤ n := by
          have := findTag_add_length_le hf
          rw [List.length_drop]
          have h10 : THINKING_START_TAG.length = 10 := by decide
          omega
        have hrest := ih _ true hdrop
        by_cases hi : 0 < i <;>
          simp [hi, wfFrom_append, wfFrom, hrest]
      | none =>
        rw [processBuf_false_none hf]
        split <;> simp [wfFrom]
    | true =>
      cases hf : findTag THINKING_END_TAG buf with
      | some i =>
        rw [processBuf_true_some hf]
        have hdrop : (buf.drop (i + THINKING_END_TAG.length)).length ≤ n := by
          have := findTag_add_length_le hf
          rw [List.length_drop]
          have h11 : THINKING_END_TAG.length = 11 := by decide
          omega
        have hrest := ih _ false hdrop
        by_cases hi : 0 < i <;>
          simp [hi, wfFrom_append, wfFrom, hrest]
      | none =>
        rw [processBuf_true_none hf]
        split <;> simp [wfFrom]

theorem handlerFlush_wf (st : HandlerState) :
    wfFrom st.1 (handlerFlush st) = some st.1 := by
  rw [handlerFlush]
  rcases st with ⟨m, buf⟩
  by_cases hb : buf = []
  · simp [hb, wfFrom]
  · cases m <;> simp [hb, wfFrom]

theorem process_content_wf (enabled : Bool) (st : HandlerState) (s : Str)
    (hdis : enabled = false → st.1 = false) :
    wfFrom st.1 (process_content enabled st s).2 =
      some (process_content enabled st s).1.1 := by
  rw [process_content]
  by_cases he : enabled = false
  · have h0 := hdis he
    rw [if_pos he, h0]
    simp [wfFrom]
  · rw [if_neg he]
    exact processBuf_wf (st.2 ++ s).length (st.2 ++ s) st.1 (le_refl _)

end KiroGate

namespace KiroGate

/-! ## Content-block discipline

`scanBlocks` replays a stream of SSE events, tracking the currently open block
index and the next index a block may open with; it succeeds exactly when every
delta falls inside the open block, blocks close what they opened, and indices
are consecutive.  The generators keep it in lock-step with their
`BlockState` (`scanStateOf`), provided the handler events respect the grammar
(`wfFrom`) and the handler mode agrees with the open flags (`Coupled`). -/

def scanBlocks : Option Nat × Nat → List SSE → Option (Option Nat × Nat)
  | st, [] => some st
  | (openIdx, nextIdx), e :: rest =>
    match e with
    | .blockStart i _ =>
      if openIdx = none ∧ i = nextIdx then scanBlocks (some i, nextIdx) rest else none
    | .blockDelta i _ =>
      if openIdx = some i then scanBlocks (openIdx, nextIdx) rest else none
    | .blockStop i =>
      if openIdx = some i then scanBlocks (none, i + 1) rest else none
    | _ => scanBlocks (openIdx, nextIdx) rest

theorem scanBlocks_append (a : List SSE) :
    ∀ st b, scanBlocks st (a ++ b) = (scanBlocks st a).bind (fun st2 => scanBlocks st2 b) := by
  induction a with
  | nil => intro st b; simp [scanBlocks]
  | cons e rest ih =>
    intro st b
    rcases st with ⟨openIdx, nextIdx⟩
    cases e <;> simp only [List.cons_append, scanBlocks] <;>
      first
        | (split
           · apply ih
           · rfl)
        | apply ih

/-- The handler mode constrains the open flags: in thinking mode the thinking
block is open and no text block is; out of thinking mode no thinking block is
open. -/
def Coupled (m : Bool) (bs : BlockState) : Prop :=
  (m = true → bs.thinkingStarted = true ∧ bs.textStarted = false)
  ∧ (m = false → bs.thinkingStarted = false)

/-- The scan state a `BlockState` corresponds to. -/
def scanStateOf (bs : BlockState) : Option Nat × Nat :=
  (if bs.textStarted || bs.thinkingStarted then some bs.index else none, bs.index)

theorem emitThinkEv_scan (m m2 : Bool) (bs : BlockState) (te : ThinkEv)
    (hwf : wfFrom m [te] = some m2) (hc : Coupled m bs) :
    scanBlocks (scanStateOf bs) (emitThinkEv bs te).2
        = some (scanStateOf (emitThinkEv bs te).1)
    ∧ Coupled m2 (emitThinkEv bs te).1 := by
  rcases bs with ⟨idx, ts, th⟩
  cases te with
  | textDelta s =>
    cases m with
    | true => simp [wfFrom] at hwf
    | false =>
      simp only [wfFrom] at hwf
      injection hwf with hm2
      subst hm2
      have hth : th = false := hc.2 rfl
      subst hth
      rw [emitThinkEv]
      by_cases hs : s = []
      · simp [hs, scanBlocks, scanStateOf]
        exact hc
      · cases ts with
        | true =>
          simp [hs, scanBlocks, scanStateOf]
          exact hc
        | false =>
          simp [hs, scanBlocks, scanStateOf]
          constructor
          · intro hcontra; exact absurd hcontra (by simp)
          · intro _; rfl
  | thinkStart =>
    cases m with
    | true => simp [wfFrom] at hwf
    | false =>
      simp only [wfFrom] at hwf
      injection hwf with hm2
      subst hm2
      have hth : th = false := hc.2 rfl
      subst hth
      rw [emitThinkEv]
      cases ts with
      | true =>
        simp [scanBlocks, scanStateOf]
        constructor
        · intro _; exact ⟨rfl, rfl⟩
        · intro hcontra; exact absurd hcontra (by simp)
      | false =>
        simp [scanBlocks, scanStateOf]
        constructor
        · intro _; exact ⟨rfl, rfl⟩
        · intro hcontra; exact absurd hcontra (by simp)
  | thinkDelta s =>
    cases m with
    | false => simp [wfFrom] at hwf
    | true =>
      simp only [wfFrom] at hwf
      injection hwf with hm2
      subst hm2
      obtain ⟨hth, hts⟩ := hc.1 rfl
      subst hth; subst hts
      rw [emitThinkEv]
      by_cases hs : s = []
      · simp [hs, scanBlocks, scanStateOf]
        exact hc
      · simp [hs, scanBlocks, scanStateOf]
        exact hc
  | thinkStop =>
    cases m with
    | false => simp [wfFrom] at hwf
    | true =>
      simp only [wfFrom] at hwf
      injection hwf with hm2
      subst hm2
      obtain ⟨hth, hts⟩ := hc.1 rfl
      subst hth; subst hts
      rw [emitThinkEv]
      simp [scanBlocks, scanStateOf]
      constructor
      · intro hcontra; exact absurd hcontra (by simp)
      · intro _; rfl

theorem emitThinkEvs_scan : ∀ (tevs : List ThinkEv) (m m2 : Bool) (bs : BlockState),
    wfFrom m tevs = some m2 → Coupled m bs →
    scanBlocks (scanStateOf bs) (emitThinkEvs bs tevs).2
        = some (scanStateOf (emitThinkEvs bs tevs).1)
    ∧ Coupled m2 (emitThinkEvs bs tevs).1 := by
  intro tevs
  induction tevs with
  | nil =>
    intro m m2 bs hwf hc
    simp only [wfFrom] at hwf
    injection hwf with hm2
    subst hm2
    exact ⟨rfl, hc⟩
  | cons te rest ih =>
    intro m m2 bs hwf hc
    have hsplit : ∃ m1, wfFrom m [te] = some m1 ∧ wfFrom m1 rest = some m2 := by
      have := wfFrom_append [te] m rest
      simp only [List.singleton_append] at this
      rw [this] at hwf
      cases h1 : wfFrom m [te] with
      | none => rw [h1] at hwf; simp at hwf
      | some m1 => rw [h1] at hwf; exact ⟨m1, rfl, by simpa using hwf⟩
    obtain ⟨m1, h1, h2⟩ := hsplit
    have hstep := emitThinkEv_scan m m1 bs te h1 hc
    have hrest := ih m1 m2 (emitThinkEv bs te).1 h2 hstep.2
    rw [emitThinkEvs]
    constructor
    · rw [scanBlocks_append, hstep.1]
      exact hrest.1
    · exact hrest.2

theorem closeBlocks_scan (bs : BlockState) (hnb : ¬(bs.textStarted = true ∧ bs.thinkingStarted = true)) :
    scanBlocks (scanStateOf bs) (closeBlocks bs).2 = some (none, (closeBlocks bs).1.index)
    ∧ (closeBlocks bs).1.textStarted = false ∧ (closeBlocks bs).1.thinkingStarted = false := by
  rcases bs with ⟨idx, ts, th⟩
  cases ts <;> cases th <;>
    simp_all [closeBlocks, scanBlocks, scanStateOf]

theorem emitToolBlocks_scan : ∀ (tcs : List ToolCallEv) (idx : Nat),
    scanBlocks (none, idx) (emitToolBlocks idx tcs) = some (none, idx + tcs.length) := by
  intro tcs
  induction tcs with
  | nil => intro idx; simp [emitToolBlocks, scanBlocks]
  | cons tc rest ih =>
    intro idx
    rw [emitToolBlocks]
    by_cases hi : tc.hasInput = true <;>
      simp [hi, scanBlocks, ih, Nat.add_assoc, Nat.add_comm 1 rest.length]

theorem consumeItems_scan (enabled : Bool) :
    ∀ (items : List UpstreamItem) (st : HandlerState) (bs : BlockState)
      (ctx : Option ℚ) (acc : Str),
      Coupled st.1 bs → (enabled = false → st.1 = false) →
      scanBlocks (scanStateOf bs) (consumeItems enabled st bs ctx acc items).events
          = some (scanStateOf (consumeItems enabled st bs ctx acc items).blockState)
      ∧ Coupled (consumeItems enabled st bs ctx acc items).thinkState.1
          (consumeItems enabled st bs ctx acc items).blockState
      ∧ (enabled = false → (consumeItems enabled st bs ctx acc items).thinkState.1 = false) := by
  intro items
  induction items with
  | nil =>
    intro st bs ctx acc hc hdis
    exact ⟨rfl, hc, hdis⟩
  | cons item rest ih =>
    intro st bs ctx acc hc hdis
    cases item with
    | content s =>
      rw [consumeItems]
      have hwf := process_content_wf enabled st s hdis
      have hstep := emitThinkEvs_scan (process_content enabled st s).2 st.1
        (process_content enabled st s).1.1 bs hwf hc
      have hdis2 : enabled = false → (process_content enabled st s).1.1 = false := by
        intro he
        rw [process_content, if_pos he]
        exact hdis he
      have hrest := ih (process_content enabled st s).1
        (emitThinkEvs bs (process_content enabled st s).2).1 ctx (acc ++ s)
        hstep.2 hdis2
      refine ⟨?_, hrest.2.1, hrest.2.2⟩
      dsimp only
      rw [scanBlocks_append, hstep.1]
      exact hrest.1
    | usage c =>
      rw [consumeItems]
      exact ih st bs ctx acc hc hdis
    | contextUsage q =>
      rw [consumeItems]
      exact ih st bs (some q) acc hc hdis
    | readError msg =>
      rw [consumeItems]
      exact ⟨rfl, hc, hdis⟩

end KiroGate

namespace KiroGate

/-! ## Soundness of the scan: bracketing and index discipline -/

/-- The indices carried by the `content_block_start` events of a stream. -/
def startIdxs (evs : List SSE) : List Nat :=
  evs.filterMap (fun e => match e with | .blockStart i _ => some i | _ => none)

/-- Reachable scan states: the open index, when present, equals the next
index. -/
def ScanInv (st : Option Nat × Nat) : Prop := st.1 = none ∨ st.1 = some st.2

/-- The next block index that may open from a scan state. -/
def scanBase (st : Option Nat × Nat) : Nat :=
  match st.1 with
  | none => st.2
  | some i => i + 1

theorem scanBlocks_starts : ∀ (evs : List SSE) (o : Option Nat) (n m : Nat),
    ScanInv (o, n) → scanBlocks (o, n) evs = some (none, m) →
    scanBase (o, n) ≤ m ∧ startIdxs evs = List.range' (scanBase (o, n)) (m - scanBase (o, n)) := by
  intro evs
  induction evs with
  | nil =>
    intro o n m _ h
    simp only [scanBlocks, Option.some_inj, Prod.mk.injEq] at h
    obtain ⟨ho, hn⟩ := h
    subst ho; subst hn
    simp [scanBase, startIdxs, List.range']
  | cons e rest ih =>
    intro o n m hinv h
    dsimp only [ScanInv] at hinv
    cases e with
    | blockStart i kind =>
      simp only [scanBlocks] at h
      split at h
      · rename_i hcond
        obtain ⟨ho, hi⟩ := hcond
        subst ho; subst hi
        have h2 := ih (some i) i m (Or.inr rfl) h
        dsimp only [scanBase] at h2 ⊢
        refine ⟨Nat.le_of_succ_le h2.1, ?_⟩
        simp only [startIdxs, List.filterMap_cons] at h2 ⊢
        rw [h2.2]
        have hm : m - i = (m - (i + 1)) + 1 := by omega
        rw [hm, List.range'_succ]
      · exact absurd h (by simp)
    | blockDelta i d =>
      simp only [scanBlocks] at h
      split at h
      · have h2 := ih o n m hinv h
        simpa [startIdxs, List.filterMap_cons] using h2
      · exact absurd h (by simp)
    | blockStop i =>
      simp only [scanBlocks] at h
      split at h
      · rename_i hcond
        rcases hinv with hinv | hinv
        · rw [hinv] at hcond; exact absurd hcond (by simp)
        · rw [hinv] at hcond
          injection hcond with hin
          subst hin
          have h2 := ih none (n + 1) m (Or.inl rfl) h
          dsimp only [scanBase] at h2 ⊢
          rw [hinv]
          simpa [startIdxs, List.filterMap_cons] using h2
      · exact absurd h (by simp)
    | messageStart t =>
      have h2 := ih o n m hinv h
      simpa [startIdxs, List.filterMap_cons] using h2
    | messageDelta s t =>
      have h2 := ih o n m hinv h
      simpa [startIdxs, List.filterMap_cons] using h2
    | messageStop =>
      have h2 := ih o n m hinv h
      simpa [startIdxs, List.filterMap_cons] using h2
    | ping =>
      have h2 := ih o n m hinv h
      simpa [startIdxs, List.filterMap_cons] using h2
    | errorEvt s =>
      have h2 := ih o n m hinv h
      simpa [startIdxs, List.filterMap_cons] using h2

theorem scanBlocks_open_closes : ∀ (evs : List SSE) (i n m : Nat),
    scanBlocks (some i, n) evs = some (none, m) → SSE.blockStop i ∈ evs := by
  intro evs
  induction evs with
  | nil =>
    intro i n m h
    simp only [scanBlocks, Option.some_inj, Prod.mk.injEq] at h
    exact absurd h.1 (by simp)
  | cons e rest ih =>
    intro i n m h
    cases e with
    | blockStart j kind =>
      simp only [scanBlocks] at h
      split at h
      · rename_i hcond; exact absurd hcond.1 (by simp)
      · exact absurd h (by simp)
    | blockDelta j d =>
      simp only [scanBlocks] at h
      split at h
      · exact List.mem_cons_of_mem _ (ih i n m h)
      · exact absurd h (by simp)
    | blockStop j =>
      simp only [scanBlocks] at h
      split at h
      · rename_i hcond
        injection hcond with hij
        subst hij
        exact List.mem_cons_self _ _
      · exact absurd h (by simp)
    | messageStart t => exact List.mem_cons_of_mem _ (ih i n m h)
    | messageDelta s t => exact List.mem_cons_of_mem _ (ih i n m h)
    | messageStop => exact List.mem_cons_of_mem _ (ih i n m h)
    | ping => exact List.mem_cons_of_mem _ (ih i n m h)
    | errorEvt s => exact List.mem_cons_of_mem _ (ih i n m h)

theorem scanBlocks_delta_bracketed : ∀ (a : List SSE) (o : Option Nat) (n m : Nat)
    (i : Nat) (d : DeltaBody) (b : List SSE),
    scanBlocks (o, n) (a ++ SSE.blockDelta i d :: b) = some (none, m) →
    ((∃ kind, SSE.blockStart i kind ∈ a) ∨ o = some i) ∧ SSE.blockStop i ∈ b := by
  intro a
  induction a with
  | nil =>
    intro o n m i d b h
    simp only [List.nil_append, scanBlocks] at h
    split at h
    · rename_i hcond
      refine ⟨Or.inr hcond, scanBlocks_open_closes b i n m ?_⟩
      rw [← hcond]; exact h
    · exact absurd h (by simp)
  | cons e a2 ih =>
    intro o n m i d b h
    rw [List.cons_append] at h
    cases e with
    | blockStart j kind =>
      simp only [scanBlocks] at h
      split at h
      · rename_i hcond
        have h2 := ih (some j) n m i d b h
        refine ⟨?_, h2.2⟩
        rcases h2.1 with ⟨k2, hk2⟩ | hopen
        · exact Or.inl ⟨k2, List.mem_cons_of_mem _ hk2⟩
        · injection hopen with hji
          subst hji
          exact Or.inl ⟨kind, List.mem_cons_self _ _⟩
      · exact absurd h (by simp)
    | blockDelta j d2 =>
      simp only [scanBlocks] at h
      split at h
      · have h2 := ih o n m i d b h
        refine ⟨?_, h2.2⟩
        rcases h2.1 with ⟨k2, hk2⟩ | hopen
        · exact Or.inl ⟨k2, List.mem_cons_of_mem _ hk2⟩
        · exact Or.inr hopen
      · exact absurd h (by simp)
    | blockStop j =>
      simp only [scanBlocks] at h
      split at h
      · have h2 := ih none (j + 1) m i d b h
        refine ⟨?_, h2.2⟩
        rcases h2.1 with ⟨k2, hk2⟩ | hopen
        · exact Or.inl ⟨k2, List.mem_cons_of_mem _ hk2⟩
        · exact absurd hopen (by simp)
      · exact absurd h (by simp)
    | messageStart t =>
      have h2 := ih o n m i d b h
      refine ⟨?_, h2.2⟩
      rcases h2.1 with ⟨k2, hk2⟩ | hopen
      · exact Or.inl ⟨k2, List.mem_cons_of_mem _ hk2⟩
      · exact Or.inr hopen
    | messageDelta s t =>
      have h2 := ih o n m i d b h
      refine ⟨?_, h2.2⟩
      rcases h2.1 with ⟨k2, hk2⟩ | hopen
      · exact Or.inl ⟨k2, List.mem_cons_of_mem _ hk2⟩
      · exact Or.inr hopen
    | messageStop =>
      have h2 := ih o n m i d b h
      refine ⟨?_, h2.2⟩
      rcases h2.1 with ⟨k2, hk2⟩ | hopen
      · exact Or.inl ⟨k2, List.mem_cons_of_mem _ hk2⟩
      · exact Or.inr hopen
    | ping =>
      have h2 := ih o n m i d b h
      refine ⟨?_, h2.2⟩
      rcases h2.1 with ⟨k2, hk2⟩ | hopen
      · exact Or.inl ⟨k2, List.mem_cons_of_mem _ hk2⟩
      · exact Or.inr hopen
    | errorEvt s =>
      have h2 := ih o n m i d b h
      refine ⟨?_, h2.2⟩
      rcases h2.1 with ⟨k2, hk2⟩ | hopen
      · exact Or.inl ⟨k2, List.mem_cons_of_mem _ hk2⟩
      · exact Or.inr hopen

/-- The block discipline the claim describes: each delta has a matching start
before it and a matching stop after it, and the start indices are exactly
0, 1, 2, ... in order. -/
def BlockDiscipline (evs : List SSE) : Prop :=
  (∀ a i d b, evs = a ++ SSE.blockDelta i d :: b →
      (∃ kind, SSE.blockStart i kind ∈ a) ∧ SSE.blockStop i ∈ b)
  ∧ ∃ k, startIdxs evs = List.range k

theorem scan_blockDiscipline (evs : List SSE) (k : Nat)
    (h : scanBlocks (none, 0) evs = some (none, k)) : BlockDiscipline evs := by
  constructor
  · intro a i d b hdecomp
    have h2 := scanBlocks_delta_bracketed a none 0 k i d b (by rw [← hdecomp]; exact h)
    refine ⟨?_, h2.2⟩
    rcases h2.1 with hs | hopen
    · exact hs
    · exact absurd hopen (by simp)
  · have h2 := scanBlocks_starts evs none 0 k (Or.inl rfl) h
    refine ⟨k, ?_⟩
    rw [h2.2]
    simp [scanBase, List.range_eq_range']

end KiroGate

namespace KiroGate

/-! ## Scan success for the full generator outputs -/

/-- No upstream read error among the parsed items. -/
def noReadError (items : List UpstreamItem) : Bool :=
  items.all (fun it => match it with | .readError _ => false | _ => true)

theorem consumeItems_noerr (enabled : Bool) :
    ∀ (items : List UpstreamItem) (st : HandlerState) (bs : BlockState)
      (ctx : Option ℚ) (acc : Str), noReadError items = true →
      (consumeItems enabled st bs ctx acc items).abortedMsg = none := by
  intro items
  induction items with
  | nil => intro st bs ctx acc _; rfl
  | cons item rest ih =>
    intro st bs ctx acc h
    cases item with
    | content s =>
      simp only [noReadError, List.all_cons, Bool.and_eq_true] at h
      rw [consumeItems]
      exact ih _ _ _ _ h.2
    | usage c =>
      simp only [noReadError, List.all_cons, Bool.and_eq_true] at h
      rw [consumeItems]
      exact ih _ _ _ _ h.2
    | contextUsage q =>
      simp only [noReadError, List.all_cons, Bool.and_eq_true] at h
      rw [consumeItems]
      exact ih _ _ _ _ h.2
    | readError msg => simp [noReadError] at h

theorem scanBlocks_append_some {a b : List SSE} {st st2 : Option Nat × Nat}
    (h : scanBlocks st a = some st2) :
    scanBlocks st (a ++ b) = scanBlocks st2 b := by
  rw [scanBlocks_append, h]
  rfl

theorem scanBlocks_messageStart (st : Option Nat × Nat) (t : Nat) (l : List SSE) :
    scanBlocks st (SSE.messageStart t :: l) = scanBlocks st l := by
  rcases st with ⟨o, n⟩
  rfl

theorem scanBlocks_replicate_ping (pingsN : Nat) :
    ∀ (st : Option Nat × Nat) (l : List SSE),
    scanBlocks st (List.replicate pingsN SSE.ping ++ l) = scanBlocks st l := by
  induction pingsN with
  | zero => intro st l; rfl
  | succ k ih =>
    intro st l
    rcases st with ⟨o, n⟩
    rw [List.replicate_succ, List.cons_append]
    exact ih (o, n) l

theorem finalizeTail_scan (r : ConsumeResult) (toolCalls : List ToolCallEv)
    (tok : Str → Nat) (hc : Coupled r.thinkState.1 r.blockState) :
    ∃ k, scanBlocks (scanStateOf r.blockState) (finalizeTail r toolCalls tok)
        = some (none, k) := by
  obtain ⟨h1scan, h1c⟩ := emitThinkEvs_scan (handlerFlush r.thinkState) r.thinkState.1
    r.thinkState.1 r.blockState (handlerFlush_wf r.thinkState) hc
  have hnb : ¬((emitThinkEvs r.blockState (handlerFlush r.thinkState)).1.textStarted = true
      ∧ (emitThinkEvs r.blockState (handlerFlush r.thinkState)).1.thinkingStarted = true) := by
    intro hboth
    cases hm : r.thinkState.1 with
    | true =>
      have := (h1c.1 hm).2
      rw [this] at hboth
      exact absurd hboth.1 (by simp)
    | false =>
      have := h1c.2 hm
      rw [this] at hboth
      exact absurd hboth.2 (by simp)
  obtain ⟨h2scan, -, -⟩ :=
    closeBlocks_scan (emitThinkEvs r.blockState (handlerFlush r.thinkState)).1 hnb
  refine ⟨(closeBlocks (emitThinkEvs r.blockState (handlerFlush r.thinkState)).1).1.index
    + toolCalls.length, ?_⟩
  rw [finalizeTail]
  simp only [List.append_assoc]
  rw [scanBlocks_append_some h1scan, scanBlocks_append_some h2scan,
    scanBlocks_append_some (emitToolBlocks_scan toolCalls _)]
  rfl

theorem events_tail_scan (r : ConsumeResult) (toolCalls : List ToolCallEv) (tok : Str → Nat)
    (hscan : scanBlocks (none, 0) r.events = some (scanStateOf r.blockState))
    (hc : Coupled r.thinkState.1 r.blockState) :
    ∃ k, scanBlocks (none, 0) (r.events ++ finalizeTail r toolCalls tok)
        = some (none, k) := by
  obtain ⟨k, hk⟩ := finalizeTail_scan r toolCalls tok hc
  exact ⟨k, by rw [scanBlocks_append_some hscan]; exact hk⟩

theorem stream_scan (enabled : Bool) (items : List UpstreamItem)
    (toolCalls : List ToolCallEv) (pre : Nat) (tok : Str → Nat)
    (hne : noReadError items = true) :
    ∃ k, scanBlocks (none, 0) (stream_kiro_to_anthropic enabled items toolCalls pre tok)
        = some (none, k) := by
  have hcoup : Coupled (false, ([] : Str)).1 (BlockState.mk 0 false false) :=
    ⟨fun hfalse => absurd hfalse (by simp), fun _ => rfl⟩
  have h := consumeItems_scan enabled items (false, []) (BlockState.mk 0 false false)
    none [] hcoup (fun _ => rfl)
  have hscan0 : scanBlocks (none, 0)
      (consumeItems enabled (false, []) (BlockState.mk 0 false false) none [] items).events
      = some (scanStateOf
        (consumeItems enabled (false, []) (BlockState.mk 0 false false) none [] items).blockState) :=
    h.1
  obtain ⟨k, hk⟩ := events_tail_scan
    (consumeItems enabled (false, []) (BlockState.mk 0 false false) none [] items)
    toolCalls tok hscan0 h.2.1
  refine ⟨k, ?_⟩
  rw [stream_kiro_to_anthropic]
  rw [consumeItems_noerr enabled items (false, []) (BlockState.mk 0 false false) none [] hne]
  rw [scanBlocks_messageStart]
  exact hk

theorem buffered_stream_scan (enabled : Bool) (items : List UpstreamItem)
    (toolCalls : List ToolCallEv) (maxIn fall : Nat) (tok : Str → Nat) (pings : Nat) :
    ∃ k, scanBlocks (none, 0)
        (stream_kiro_to_anthropic_buffered enabled items toolCalls maxIn fall tok pings)
        = some (none, k) := by
  have hcoup : Coupled (false, ([] : Str)).1 (BlockState.mk 0 false false) :=
    ⟨fun hfalse => absurd hfalse (by simp), fun _ => rfl⟩
  have h := consumeItems_scan enabled items (false, []) (BlockState.mk 0 false false)
    none [] hcoup (fun _ => rfl)
  have hscan0 : scanBlocks (none, 0)
      (consumeItems enabled (false, []) (BlockState.mk 0 false false) none [] items).events
      = some (scanStateOf
        (consumeItems enabled (false, []) (BlockState.mk 0 false false) none [] items).blockState) :=
    h.1
  rw [stream_kiro_to_anthropic_buffered]
  rw [scanBlocks_replicate_ping]
  rcases habort : (consumeItems enabled (false, []) (BlockState.mk 0 false false)
      none [] items).abortedMsg with _ | msg
  · obtain ⟨k, hk⟩ := events_tail_scan
      (consumeItems enabled (false, []) (BlockState.mk 0 false false) none [] items)
      toolCalls tok hscan0 h.2.1
    refine ⟨k, ?_⟩
    rw [scanBlocks_messageStart]
    exact hk
  · exact ⟨0, rfl⟩

end KiroGate

namespace KiroGate

/-- **C3.** Content-block discipline of the SSE generators: every
`content_block_delta` with index `i` has a `content_block_start` with index
`i` before it and a `content_block_stop` with index `i` after it, and the
start indices are exactly 0, 1, 2, ... in order — for the buffered generator
on every upstream item list, and for the standard generator whenever the
upstream read loop finishes without a read error (a mid-stream read error
makes the standard generator emit an error event with blocks left open, see
the counterexample). -/
theorem c3_block_structure (enabled : Bool) (items : List UpstreamItem)
    (toolCalls : List ToolCallEv) (preInputTokens maxInputTokens fallbackTokens : Nat)
    (tok : Str → Nat) (pings : Nat) :
    (noReadError items = true →
      BlockDiscipline (stream_kiro_to_anthropic enabled items toolCalls preInputTokens tok))
    ∧ BlockDiscipline (stream_kiro_to_anthropic_buffered enabled items toolCalls
        maxInputTokens fallbackTokens tok pings) := by
  constructor
  · intro hne
    obtain ⟨k, hk⟩ := stream_scan enabled items toolCalls preInputTokens tok hne
    exact scan_blockDiscipline _ k hk
  · obtain ⟨k, hk⟩ :=
      buffered_stream_scan enabled items toolCalls maxInputTokens fallbackTokens tok pings
    exact scan_blockDiscipline _ k hk

/-- Witness for C3 at the spec's cross-chunk thinking scenario. -/
theorem c3_block_structure_witness :
    noReadError [UpstreamItem.content "hello <thi".toList,
        UpstreamItem.content "nking>secret</thinking>world".toList] = true
    ∧ BlockDiscipline (stream_kiro_to_anthropic true
        [UpstreamItem.content "hello <thi".toList,
          UpstreamItem.content "nking>secret</thinking>world".toList] [] 7 List.length)
    ∧ BlockDiscipline (stream_kiro_to_anthropic_buffered true
        [UpstreamItem.content "hello <thi".toList,
          UpstreamItem.content "nking>secret</thinking>world".toList] [] 200000 5
        List.length 2) :=
  ⟨by decide,
    (c3_block_structure true
      [UpstreamItem.content "hello <thi".toList,
        UpstreamItem.content "nking>secret</thinking>world".toList]
      [] 7 200000 5 List.length 2).1 (by decide),
    (c3_block_structure true
      [UpstreamItem.content "hello <thi".toList,
        UpstreamItem.content "nking>secret</thinking>world".toList]
      [] 7 200000 5 List.length 2).2⟩

/-- C3 counterexample: when the upstream read raises mid-stream, the standard
generator emits its error event with the text block still open, so the emitted
delta at index 0 has no `content_block_stop` after it. -/
theorem c3_counterexample :
    ¬ BlockDiscipline (stream_kiro_to_anthropic true
        [UpstreamItem.content "hello".toList, UpstreamItem.readError "boom".toList]
        [] 7 List.length) := by
  intro h
  have h2 := h.1 [SSE.messageStart 7, SSE.blockStart 0 BlockKind.text] 0
    (DeltaBody.textDelta "hello".toList) [SSE.errorEvt "boom".toList] (by decide)
  exact absurd h2.2 (by decide)

end KiroGate

namespace KiroGate

/-- **C10.** Buffered streaming is atomic on failure: when the background
consumption of the upstream stream ends in a read error, the generator's
whole output is its keepalive pings followed by exactly one error event —
no `message_start`, no content-block events, and none of the buffered
events reach the client. -/
theorem c10_buffered_atomic (enabled : Bool) (items : List UpstreamItem)
    (toolCalls : List ToolCallEv) (maxIn fall : Nat) (tok : Str → Nat) (pings : Nat)
    (msg : Str)
    (habort : (consumeItems enabled (false, []) (BlockState.mk 0 false false)
      none [] items).abortedMsg = some msg) :
    stream_kiro_to_anthropic_buffered enabled items toolCalls maxIn fall tok pings
        = List.replicate pings SSE.ping ++ [SSE.errorEvt msg]
    ∧ (stream_kiro_to_anthropic_buffered enabled items toolCalls maxIn fall tok pings).count
        (SSE.errorEvt msg) = 1
    ∧ ∀ e ∈ stream_kiro_to_anthropic_buffered enabled items toolCalls maxIn fall tok pings,
        e = SSE.ping ∨ e = SSE.errorEvt msg := by
  have hmain : stream_kiro_to_anthropic_buffered enabled items toolCalls maxIn fall tok pings
      = List.replicate pings SSE.ping ++ [SSE.errorEvt msg] := by
    rw [stream_kiro_to_anthropic_buffered, habort]
  refine ⟨hmain, ?_, ?_⟩
  · rw [hmain, List.count_append]
    simp [List.count_replicate]
  · rw [hmain]
    intro e he
    rcases List.mem_append.mp he with he | he
    · exact Or.inl (List.eq_of_mem_replicate he)
    · exact Or.inr (List.mem_singleton.mp he)

/-- Witness for C10: an upstream read error after one content chunk, with two
pings sent while waiting. -/
theorem c10_buffered_atomic_witness :
    (consumeItems true (false, []) (BlockState.mk 0 false false) none []
        [UpstreamItem.content "hello".toList, UpstreamItem.readError "boom".toList]).abortedMsg
      = some "boom".toList
    ∧ stream_kiro_to_anthropic_buffered true
        [UpstreamItem.content "hello".toList, UpstreamItem.readError "boom".toList]
        [] 200000 5 List.length 2
      = List.replicate 2 SSE.ping ++ [SSE.errorEvt "boom".toList] :=
  ⟨by decide,
    (c10_buffered_atomic true
      [UpstreamItem.content "hello".toList, UpstreamItem.readError "boom".toList]
      [] 200000 5 List.length 2 "boom".toList (by decide)).1⟩

end KiroGate

namespace KiroGate

/-! ## Buffered message_start and the accurate input-token value -/

/-- The last `context_usage` percentage seen so far (what the consumption loop
leaves in `context_usage_percentage`). -/
def lastCtxGo (acc : Option ℚ) : List UpstreamItem → Option ℚ
  | [] => acc
  | .contextUsage q :: rest => lastCtxGo (some q) rest
  | _ :: rest => lastCtxGo acc rest

theorem consumeItems_ctx (enabled : Bool) :
    ∀ (items : List UpstreamItem) (st : HandlerState) (bs : BlockState)
      (ctx : Option ℚ) (acc : Str), noReadError items = true →
      (consumeItems enabled st bs ctx acc items).ctxUsage = lastCtxGo ctx items := by
  intro items
  induction items with
  | nil => intro st bs ctx acc _; rfl
  | cons item rest ih =>
    intro st bs ctx acc h
    cases item with
    | content s =>
      simp only [noReadError, List.all_cons, Bool.and_eq_true] at h
      rw [consumeItems]
      simp only [lastCtxGo]
      exact ih _ _ _ _ h.2
    | usage c =>
      simp only [noReadError, List.all_cons, Bool.and_eq_true] at h
      rw [consumeItems]
      simp only [lastCtxGo]
      exact ih _ _ _ _ h.2
    | contextUsage q =>
      simp only [noReadError, List.all_cons, Bool.and_eq_true] at h
      rw [consumeItems]
      simp only [lastCtxGo]
      exact ih _ _ _ _ h.2
    | readError msg => simp [noReadError] at h

/-- Content-block events (`content_block_start` / `_delta` / `_stop`). -/
def isBlockEvent : SSE → Bool
  | .blockStart _ _ => true
  | .blockDelta _ _ => true
  | .blockStop _ => true
  | _ => false

theorem emitThinkEv_blockEvents (bs : BlockState) (te : ThinkEv) :
    ((emitThinkEv bs te).2.all isBlockEvent) = true := by
  cases te <;> simp only [emitThinkEv] <;> split_ifs <;> rfl

theorem emitThinkEvs_blockEvents : ∀ (tevs : List ThinkEv) (bs : BlockState),
    ((emitThinkEvs bs tevs).2.all isBlockEvent) = true := by
  intro tevs
  induction tevs with
  | nil => intro bs; rfl
  | cons te rest ih =>
    intro bs
    rw [emitThinkEvs]
    simp only [List.all_append, Bool.and_eq_true]
    exact ⟨emitThinkEv_blockEvents bs te, ih _⟩

theorem closeBlocks_blockEvents (bs : BlockState) :
    ((closeBlocks bs).2.all isBlockEvent) = true := by
  rw [closeBlocks]
  split_ifs <;> rfl

theorem emitToolBlocks_blockEvents : ∀ (tcs : List ToolCallEv) (idx : Nat),
    ((emitToolBlocks idx tcs).all isBlockEvent) = true := by
  intro tcs
  induction tcs with
  | nil => intro idx; rfl
  | cons tc rest ih =>
    intro idx
    rw [emitToolBlocks]
    by_cases hi : tc.hasInput = true <;>
      simp [hi, List.all_append, isBlockEvent, ih]

theorem consumeItems_blockEvents (enabled : Bool) :
    ∀ (items : List UpstreamItem) (st : HandlerState) (bs : BlockState)
      (ctx : Option ℚ) (acc : Str),
      ((consumeItems enabled st bs ctx acc items).events.all isBlockEvent) = true := by
  intro items
  induction items with
  | nil => intro st bs ctx acc; rfl
  | cons item rest ih =>
    intro st bs ctx acc
    cases item with
    | content s =>
      rw [consumeItems]
      simp only [List.all_append, Bool.and_eq_true]
      exact ⟨emitThinkEvs_blockEvents _ _, ih _ _ _ _⟩
    | usage c => rw [consumeItems]; exact ih _ _ _ _
    | contextUsage q => rw [consumeItems]; exact ih _ _ _ _
    | readError msg => rfl

/-- The input-token computation as the claim words it: the **rounded**
percent/100 of the model maximum whenever a `context_usage` event arrived. -/
def roundedInputTokensSpec (ctx : Option ℚ) (maxInputTokens fallbackTokens : Nat) : Nat :=
  match ctx with
  | some q => (round (q / 100 * (maxInputTokens : ℚ))).toNat
  | none => fallbackTokens

/-- **C5.** After a buffered stream completes without a read error, the output
past the keepalive pings is a `message_start` carrying
`accurateInputTokens` of the last `context_usage` percentage (Python `int()`
truncation of percent/100 of the model maximum when a positive percentage
arrived, else the tokenizer fallback), then the buffered content-block events
in order, then `message_delta` with the counted output tokens and
`message_stop`; with `context_usage` 10.0 and model maximum 200000 the emitted
`input_tokens` is 20000. -/
theorem c5_buffered_message_start (enabled : Bool) (items : List UpstreamItem)
    (toolCalls : List ToolCallEv) (maxIn fall : Nat) (tok : Str → Nat) (pings : Nat)
    (hne : noReadError items = true) :
    (∃ body outTok stopR,
      stream_kiro_to_anthropic_buffered enabled items toolCalls maxIn fall tok pings
        = List.replicate pings SSE.ping
          ++ SSE.messageStart (accurateInputTokens (lastCtxGo none items) maxIn fall)
            :: (body ++ [SSE.messageDelta stopR outTok, SSE.messageStop])
      ∧ body.all isBlockEvent = true)
    ∧ accurateInputTokens (some (10 : ℚ)) 200000 fall = 20000 := by
  constructor
  · have habort := consumeItems_noerr enabled items (false, [])
      (BlockState.mk 0 false false) none [] hne
    have hctx := consumeItems_ctx enabled items (false, [])
      (BlockState.mk 0 false false) none [] hne
    refine ⟨(consumeItems enabled (false, []) (BlockState.mk 0 false false) none [] items).events
        ++ ((emitThinkEvs
            (consumeItems enabled (false, []) (BlockState.mk 0 false false) none [] items).blockState
            (handlerFlush
              (consumeItems enabled (false, []) (BlockState.mk 0 false false) none [] items).thinkState)).2
          ++ ((closeBlocks
              (emitThinkEvs
                (consumeItems enabled (false, []) (BlockState.mk 0 false false) none [] items).blockState
                (handlerFlush
                  (consumeItems enabled (false, []) (BlockState.mk 0 false false) none [] items).thinkState)).1).2
            ++ emitToolBlocks
              (closeBlocks
                (emitThinkEvs
                  (consumeItems enabled (false, []) (BlockState.mk 0 false false) none [] items).blockState
                  (handlerFlush
                    (consumeItems enabled (false, []) (BlockState.mk 0 false false) none [] items).thinkState)).1).1.index
              toolCalls)),
      tok (consumeItems enabled (false, []) (BlockState.mk 0 false false) none [] items).fullContent,
      (if toolCalls.isEmpty then "end_turn".toList else "tool_use".toList), ?_, ?_⟩
    · rw [stream_kiro_to_anthropic_buffered, habort, hctx, finalizeTail]
      simp [List.append_assoc]
    · simp only [List.all_append, Bool.and_eq_true]
      exact ⟨consumeItems_blockEvents enabled items _ _ _ _,
        emitThinkEvs_blockEvents _ _, closeBlocks_blockEvents _,
        emitToolBlocks_blockEvents toolCalls _⟩
  · have hval : ((10 : ℚ) / 100 * ((200000 : Nat) : ℚ)) = 20000 := by push_cast; norm_num
    simp only [accurateInputTokens]
    rw [if_pos (by norm_num), hval]
    simp

/-- Witness for C5: a stream delivering `context_usage` 10.0 then text, with
model maximum 200000. -/
theorem c5_buffered_message_start_witness :
    accurateInputTokens (some (10 : ℚ)) 200000 5 = 20000
    ∧ (∃ body outTok stopR,
      stream_kiro_to_anthropic_buffered true
          [UpstreamItem.contextUsage 10, UpstreamItem.content "hi".toList]
          [] 200000 5 List.length 1
        = List.replicate 1 SSE.ping
          ++ SSE.messageStart
              (accurateInputTokens
                (lastCtxGo none [UpstreamItem.contextUsage 10, UpstreamItem.content "hi".toList])
                200000 5)
            :: (body ++ [SSE.messageDelta stopR outTok, SSE.messageStop])
      ∧ body.all isBlockEvent = true) := by
  have h := c5_buffered_message_start true
    [UpstreamItem.contextUsage 10, UpstreamItem.content "hi".toList]
    [] 200000 5 List.length 1 (by decide)
  exact ⟨h.2, h.1⟩

/-- C5 counterexample: the code truncates (`int()`), it does not round — at
`context_usage` 10.0003 percent of a 200000-token maximum the code emits
20000 while the claimed rounding gives 20001. -/
theorem c5_counterexample :
    accurateInputTokens (some (100003 / 10000 : ℚ)) 200000 5 = 20000
    ∧ roundedInputTokensSpec (some (100003 / 10000 : ℚ)) 200000 5 = 20001 := by
  have hfloor : Int.floor ((100003 / 10000 : ℚ) / 100 * ((200000 : Nat) : ℚ)) = 20000 := by
    rw [Int.floor_eq_iff]
    push_cast
    norm_num
  have hround : round ((100003 / 10000 : ℚ) / 100 * ((200000 : Nat) : ℚ)) = 20001 := by
    rw [round_eq, Int.floor_eq_iff]
    push_cast
    norm_num
  constructor
  · simp only [accurateInputTokens]
    rw [if_pos (by norm_num), hfloor]
    rfl
  · simp only [roundedInputTokensSpec]
    rw [hround]
    rfl

end KiroGate

namespace KiroGate

/-! ## Chunk-split safety of the thinking handler

The parser's output for a fixed input text depends on chunk boundaries only
through how maximal runs of text/thinking content are cut into deltas.
`canon` merges adjacent deltas of the same type, so canonical equality states
boundary independence. -/

/-- A text delta when the content is non-empty. -/
def tdOpt (s : Str) : List ThinkEv := if s = [] then [] else [ThinkEv.textDelta s]

/-- A thinking delta when the content is non-empty. -/
def thOpt (s : Str) : List ThinkEv := if s = [] then [] else [ThinkEv.thinkDelta s]

/-- Prepend an event, merging it into an adjacent delta of the same type. -/
def ccons : ThinkEv → List ThinkEv → List ThinkEv
  | .textDelta s, .textDelta t :: rest => .textDelta (s ++ t) :: rest
  | .thinkDelta s, .thinkDelta t :: rest => .thinkDelta (s ++ t) :: rest
  | e, rest => e :: rest

/-- Canonical form of an event list: adjacent same-type deltas merged. -/
def canon (evs : List ThinkEv) : List ThinkEv := evs.foldr ccons []

theorem ccons_td_ccons_td (x y : Str) (l : List ThinkEv) :
    ccons (.textDelta x) (ccons (.textDelta y) l) = ccons (.textDelta (x ++ y)) l := by
  cases l with
  | nil => simp [ccons]
  | cons e r => cases e <;> simp [ccons, List.append_assoc]

theorem ccons_th_ccons_th (x y : Str) (l : List ThinkEv) :
    ccons (.thinkDelta x) (ccons (.thinkDelta y) l) = ccons (.thinkDelta (x ++ y)) l := by
  cases l with
  | nil => simp [ccons]
  | cons e r => cases e <;> simp [ccons, List.append_assoc]

theorem foldr_ccons_ccons (e : ThinkEv) (m : List ThinkEv) (r : List ThinkEv) :
    List.foldr ccons r (ccons e m) = ccons e (List.foldr ccons r m) := by
  cases e with
  | textDelta s =>
    cases m with
    | nil => rfl
    | cons e2 m2 =>
      cases e2 with
      | textDelta t =>
        show List.foldr ccons r (ThinkEv.textDelta (s ++ t) :: m2)
          = ccons (ThinkEv.textDelta s) (ccons (ThinkEv.textDelta t) (List.foldr ccons r m2))
        rw [ccons_td_ccons_td]
        rfl
      | thinkDelta t => rfl
      | thinkStart => rfl
      | thinkStop => rfl
  | thinkDelta s =>
    cases m with
    | nil => rfl
    | cons e2 m2 =>
      cases e2 with
      | thinkDelta t =>
        show List.foldr ccons r (ThinkEv.thinkDelta (s ++ t) :: m2)
          = ccons (ThinkEv.thinkDelta s) (ccons (ThinkEv.thinkDelta t) (List.foldr ccons r m2))
        rw [ccons_th_ccons_th]
        rfl
      | textDelta t => rfl
      | thinkStart => rfl
      | thinkStop => rfl
  | thinkStart => cases m with | nil => rfl | cons e2 m2 => cases e2 <;> rfl
  | thinkStop => cases m with | nil => rfl | cons e2 m2 => cases e2 <;> rfl

theorem foldr_ccons_canon : ∀ (l : List ThinkEv) (r : List ThinkEv),
    List.foldr ccons r l = List.foldr ccons r (canon l) := by
  intro l
  induction l with
  | nil => intro r; rfl
  | cons e l2 ih =>
    intro r
    show ccons e (List.foldr ccons r l2) = List.foldr ccons r (ccons e (canon l2))
    rw [foldr_ccons_ccons, ih]

theorem canon_append (a b : List ThinkEv) :
    canon (a ++ b) = List.foldr ccons (canon b) a := by
  rw [canon, List.foldr_append]
  rfl

theorem canon_cong_left {l1 l2 : List ThinkEv} (x : List ThinkEv)
    (h : canon l1 = canon l2) : canon (x ++ l1) = canon (x ++ l2) := by
  rw [canon_append, canon_append, h]

theorem canon_cong_right {l1 l2 : List ThinkEv} (x : List ThinkEv)
    (h : canon l1 = canon l2) : canon (l1 ++ x) = canon (l2 ++ x) := by
  rw [canon_append, canon_append, foldr_ccons_canon l1, foldr_ccons_canon l2, h]

theorem count_ccons_start (e : ThinkEv) (m : List ThinkEv) :
    (ccons e m).count ThinkEv.thinkStart = (e :: m).count ThinkEv.thinkStart := by
  cases e <;> cases m with
    | nil => rfl
    | cons e2 m2 =>
      cases e2 <;> simp [ccons, List.count_cons]

theorem count_ccons_stop (e : ThinkEv) (m : List ThinkEv) :
    (ccons e m).count ThinkEv.thinkStop = (e :: m).count ThinkEv.thinkStop := by
  cases e <;> cases m with
    | nil => rfl
    | cons e2 m2 =>
      cases e2 <;> simp [ccons, List.count_cons]

theorem canon_count_start (l : List ThinkEv) :
    (canon l).count ThinkEv.thinkStart = l.count ThinkEv.thinkStart := by
  induction l with
  | nil => rfl
  | cons e l2 ih =>
    show (ccons e (canon l2)).count ThinkEv.thinkStart = _
    rw [count_ccons_start]
    simp [List.count_cons, ih]

theorem canon_count_stop (l : List ThinkEv) :
    (canon l).count ThinkEv.thinkStop = l.count ThinkEv.thinkStop := by
  induction l with
  | nil => rfl
  | cons e l2 ih =>
    show (ccons e (canon l2)).count ThinkEv.thinkStop = _
    rw [count_ccons_stop]
    simp [List.count_cons, ih]

/-- The thinking bytes an event list carries, in order. -/
def thinkContent (evs : List ThinkEv) : Str :=
  evs.foldr (fun e acc => match e with | .thinkDelta s => s ++ acc | _ => acc) []

/-- The text bytes an event list carries, in order. -/
def textContent (evs : List ThinkEv) : Str :=
  evs.foldr (fun e acc => match e with | .textDelta s => s ++ acc | _ => acc) []

theorem thinkContent_ccons (e : ThinkEv) (m : List ThinkEv) :
    thinkContent (ccons e m) = thinkContent (e :: m) := by
  cases e <;> cases m with
    | nil => rfl
    | cons e2 m2 =>
      cases e2 <;> simp [ccons, thinkContent, List.append_assoc]

theorem textContent_ccons (e : ThinkEv) (m : List ThinkEv) :
    textContent (ccons e m) = textContent (e :: m) := by
  cases e <;> cases m with
    | nil => rfl
    | cons e2 m2 =>
      cases e2 <;> simp [ccons, textContent, List.append_assoc]

theorem canon_thinkContent (l : List ThinkEv) : thinkContent (canon l) = thinkContent l := by
  induction l with
  | nil => rfl
  | cons e l2 ih =>
    show thinkContent (ccons e (canon l2)) = _
    rw [thinkContent_ccons]
    cases e with
    | thinkDelta s =>
      show s ++ thinkContent (canon l2) = s ++ thinkContent l2
      rw [ih]
    | textDelta s =>
      show thinkContent (canon l2) = thinkContent l2
      exact ih
    | thinkStart =>
      show thinkContent (canon l2) = thinkContent l2
      exact ih
    | thinkStop =>
      show thinkContent (canon l2) = thinkContent l2
      exact ih

theorem canon_textContent (l : List ThinkEv) : textContent (canon l) = textContent l := by
  induction l with
  | nil => rfl
  | cons e l2 ih =>
    show textContent (ccons e (canon l2)) = _
    rw [textContent_ccons]
    cases e with
    | textDelta s =>
      show s ++ textContent (canon l2) = s ++ textContent l2
      rw [ih]
    | thinkDelta s =>
      show textContent (canon l2) = textContent l2
      exact ih
    | thinkStart =>
      show textContent (canon l2) = textContent l2
      exact ih
    | thinkStop =>
      show textContent (canon l2) = textContent l2
      exact ih

end KiroGate

namespace KiroGate

/-! ## Properties of the pending-tag suffix and of first occurrences -/

theorem isPrefixOf_length_le {t x : Str} (h : t.isPrefixOf x = true) :
    t.length ≤ x.length :=
  (List.isPrefixOf_iff_prefix.mp h).length_le

theorem prefix_trim {t a s : Str} (h : t.isPrefixOf (a ++ s) = true)
    (hl : t.length ≤ a.length) : t.isPrefixOf a = true := by
  have hp := List.isPrefixOf_iff_prefix.mp h
  have ht : t = (a ++ s).take t.length := List.prefix_iff_eq_take.mp hp
  have htake : (a ++ s).take t.length = a.take t.length := by
    rw [List.take_append_eq_append_take]
    have : t.length - a.length = 0 := by omega
    rw [this]
    simp
  rw [htake] at ht
  exact List.isPrefixOf_iff_prefix.mpr (ht ▸ List.take_prefix t.length a)

theorem prefix_ext {t a : Str} (s : Str) (h : t.isPrefixOf a = true) :
    t.isPrefixOf (a ++ s) = true :=
  List.isPrefixOf_iff_prefix.mpr
    ((List.isPrefixOf_iff_prefix.mp h).trans (List.prefix_append a s))

theorem take_of_prefix {t x s : Str} (h : t.isPrefixOf (x ++ s) = true)
    (hl : x.length ≤ t.length) : t.take x.length = x := by
  have ht : t = (x ++ s).take t.length :=
    List.prefix_iff_eq_take.mp (List.isPrefixOf_iff_prefix.mp h)
  rw [ht, List.take_take, Nat.min_eq_left hl, List.take_append_eq_append_take]
  simp

theorem pendDown_le (b t : Str) : ∀ n, pendDown b t n ≤ n := by
  intro n
  induction n with
  | zero => rfl
  | succ k ih =>
    rw [pendDown]
    split
    · exact le_refl _
    · exact Nat.le_succ_of_le ih

theorem pendDown_match (b t : Str) : ∀ n, 1 ≤ pendDown b t n →
    b.drop (b.length - pendDown b t n) = t.take (pendDown b t n) := by
  intro n
  induction n with
  | zero => intro h; exact absurd h (by simp [pendDown])
  | succ k ih =>
    intro h
    by_cases hc : b.drop (b.length - (k + 1)) = t.take (k + 1)
    · rw [pendDown, if_pos hc]
      exact hc
    · rw [pendDown, if_neg hc] at h ⊢
      exact ih h

theorem pendDown_max (b t : Str) : ∀ n L, 1 ≤ L → L ≤ n →
    b.drop (b.length - L) = t.take L → L ≤ pendDown b t n := by
  intro n
  induction n with
  | zero => intro L h1 h2 _; omega
  | succ k ih =>
    intro L h1 h2 hm
    rw [pendDown]
    split
    · rename_i hc
      exact h2
    · rename_i hc
      rcases Nat.lt_or_ge L (k + 1) with hL | hL
      · exact ih L h1 (by omega) hm
      · have : L = k + 1 := by omega
        subst this
        exact absurd hm hc

theorem pend_le_buf (b t : Str) : pendingTagSuffix b t ≤ b.length :=
  le_trans (pendDown_le b t _) (Nat.min_le_left _ _)

theorem pend_lt_tag (b t : Str) (ht : 1 ≤ t.length) : pendingTagSuffix b t < t.length :=
  lt_of_le_of_lt (le_trans (pendDown_le b t _) (Nat.min_le_right _ _)) (by omega)

theorem pend_match (b t : Str) (h : 1 ≤ pendingTagSuffix b t) :
    b.drop (b.length - pendingTagSuffix b t) = t.take (pendingTagSuffix b t) :=
  pendDown_match b t _ h

theorem pend_max (b t : Str) (L : Nat) (h1 : 1 ≤ L) (h2 : L ≤ b.length)
    (h3 : L ≤ t.length - 1) (hm : b.drop (b.length - L) = t.take L) :
    L ≤ pendingTagSuffix b t :=
  pendDown_max b t _ L h1 (le_min h2 h3) hm

/-- A drop at an index below the string length distributes over an append. -/
theorem drop_append_left {w s : Str} {q : Nat} (hq : q ≤ w.length) :
    (w ++ s).drop q = w.drop q ++ s := by
  rw [List.drop_append_eq_append_drop]
  have : q - w.length = 0 := by omega
  rw [this]
  simp

/-- A drop past the kept prefix `w.take k` lands in the extension. -/
theorem drop_append_shift {w s : Str} {k j : Nat} (hk : k ≤ w.length) :
    (w ++ s).drop (k + j) = (w.drop k ++ s).drop j := by
  have hsplit : w ++ s = w.take k ++ (w.drop k ++ s) := by
    rw [← List.append_assoc, List.take_append_drop]
  rw [hsplit, List.drop_append_eq_append_drop]
  have h1 : (w.take k).length = k := by
    rw [List.length_take]
    omega
  rw [h1]
  have h2 : (w.take k).drop (k + j) = [] := by
    apply List.drop_eq_nil_of_le
    omega
  rw [h2]
  simp

theorem findTag_append_some {tag w : Str} {i : Nat} (s : Str) (htag : tag ≠ [])
    (h : findTag tag w = some i) : findTag tag (w ++ s) = some i := by
  have hp := findTag_isPrefixOf h
  have hle := findTag_add_length_le h
  have htlen : 1 ≤ tag.length := by
    cases tag with
    | nil => exact absurd rfl htag
    | cons c cs => simp
  have hiw : i ≤ w.length := by omega
  have hp2 : tag.isPrefixOf ((w ++ s).drop i) = true := by
    rw [drop_append_left hiw]
    exact prefix_ext s hp
  obtain ⟨i2, hfi2, hle2⟩ := findTag_some_of_isPrefixOf htag hp2
  rcases Nat.lt_or_ge i2 i with hlt | hge
  · exfalso
    have hp3 := findTag_isPrefixOf hfi2
    rw [drop_append_left (by omega)] at hp3
    have hp4 : tag.isPrefixOf (w.drop i2) = true := by
      apply prefix_trim hp3
      rw [List.length_drop]
      omega
    exact findTag_min h i2 hlt hp4
  · have : i2 = i := by omega
    subst this
    exact hfi2

theorem no_early_occurrence {tag w : Str} (s : Str) (htlen : 1 ≤ tag.length)
    (hnone : findTag tag w = none) :
    ∀ q, q < w.length - pendingTagSuffix w tag →
      ¬ tag.isPrefixOf ((w ++ s).drop q) = true := by
  intro q hq hcontra
  have htag : tag ≠ [] := by
    cases tag with
    | nil => simp at htlen
    | cons c cs => simp
  have hqw : q < w.length := lt_of_lt_of_le hq (Nat.sub_le _ _)
  rw [drop_append_left (by omega)] at hcontra
  rcases le_or_lt tag.length (w.length - q) with hcase | hcase
  · have hp : tag.isPrefixOf (w.drop q) = true := by
      apply prefix_trim hcontra
      rw [List.length_drop]
      omega
    exact (findTag_eq_none_iff htag).mp hnone q hp
  · have hlenq : (w.drop q).length = w.length - q := by rw [List.length_drop]
    have hL1 : 1 ≤ w.length - q := by omega
    have htake : tag.take (w.drop q).length = w.drop q :=
      take_of_prefix hcontra (by omega)
    rw [hlenq] at htake
    have hmatch : w.drop (w.length - (w.length - q)) = tag.take (w.length - q) := by
      have : w.length - (w.length - q) = q := by omega
      rw [this, htake]
    have hmax := pend_max w tag (w.length - q) hL1 (by omega) (by omega) hmatch
    omega

theorem findTag_append_shift_some {tag w : Str} (s : Str) (htlen : 1 ≤ tag.length)
    (hnone : findTag tag w = none) {j : Nat}
    (hj : findTag tag (w.drop (w.length - pendingTagSuffix w tag) ++ s) = some j) :
    findTag tag (w ++ s) = some (w.length - pendingTagSuffix w tag + j) := by
  have htag : tag ≠ [] := by
    cases tag with
    | nil => simp at htlen
    | cons c cs => simp
  have hk : w.length - pendingTagSuffix w tag ≤ w.length := Nat.sub_le _ _
  have hshift : ∀ m, (w ++ s).drop (w.length - pendingTagSuffix w tag + m)
      = (w.drop (w.length - pendingTagSuffix w tag) ++ s).drop m :=
    fun m => drop_append_shift hk
  have hp : tag.isPrefixOf
      ((w ++ s).drop (w.length - pendingTagSuffix w tag + j)) = true := by
    rw [hshift j]
    exact findTag_isPrefixOf hj
  obtain ⟨i2, hfi2, hle2⟩ := findTag_some_of_isPrefixOf htag hp
  rcases Nat.lt_or_ge i2 (w.length - pendingTagSuffix w tag) with hlt | hge
  · exact absurd (findTag_isPrefixOf hfi2) (no_early_occurrence s htlen hnone i2 hlt)
  · have hdecomp : i2 = w.length - pendingTagSuffix w tag
        + (i2 - (w.length - pendingTagSuffix w tag)) := by omega
    rcases Nat.lt_or_ge i2 (w.length - pendingTagSuffix w tag + j) with hlt2 | hge2
    · exfalso
      have hp3 := findTag_isPrefixOf hfi2
      rw [hdecomp, hshift] at hp3
      exact findTag_min hj _ (by omega) hp3
    · have : i2 = w.length - pendingTagSuffix w tag + j := by omega
      subst this
      exact hfi2

theorem findTag_append_shift_none {tag w : Str} (s : Str) (htlen : 1 ≤ tag.length)
    (hnone : findTag tag w = none)
    (hj : findTag tag (w.drop (w.length - pendingTagSuffix w tag) ++ s) = none) :
    findTag tag (w ++ s) = none := by
  have htag : tag ≠ [] := by
    cases tag with
    | nil => simp at htlen
    | cons c cs => simp
  have hk : w.length - pendingTagSuffix w tag ≤ w.length := Nat.sub_le _ _
  rw [findTag_eq_none_iff htag]
  intro q hcontra
  rcases Nat.lt_or_ge q (w.length - pendingTagSuffix w tag) with hlt | hge
  · exact no_early_occurrence s htlen hnone q hlt hcontra
  · have hdecomp : q = w.length - pendingTagSuffix w tag
        + (q - (w.length - pendingTagSuffix w tag)) := by omega
    rw [hdecomp, drop_append_shift hk] at hcontra
    exact (findTag_eq_none_iff htag).mp hj _ hcontra

end KiroGate

namespace KiroGate

theorem pend_append {tag w : Str} (s : Str) (htlen : 1 ≤ tag.length)
    (hnone : findTag tag w = none) :
    pendingTagSuffix (w ++ s) tag
      = pendingTagSuffix (w.drop (w.length - pendingTagSuffix w tag) ++ s) tag := by
  have hplew := pend_le_buf w tag
  have hb1len : (w.drop (w.length - pendingTagSuffix w tag)).length
      = pendingTagSuffix w tag := by
    rw [List.length_drop]
    omega
  apply le_antisymm
  · rcases Nat.eq_zero_or_pos (pendingTagSuffix (w ++ s) tag) with hP | hP
    · rw [hP]; exact Nat.zero_le _
    · have hmatch := pend_match (w ++ s) tag hP
      have hPle := pend_le_buf (w ++ s) tag
      have hPlt := pend_lt_tag (w ++ s) tag htlen
      rw [List.length_append] at hPle
      rcases le_or_lt (pendingTagSuffix (w ++ s) tag)
          (pendingTagSuffix w tag + s.length) with hCP | hCP
      · have hidx : (w ++ s).length - pendingTagSuffix (w ++ s) tag
            = (w.length - pendingTagSuffix w tag)
              + (pendingTagSuffix w tag + s.length - pendingTagSuffix (w ++ s) tag) := by
          rw [List.length_append]
          omega
        rw [hidx, drop_append_shift (Nat.sub_le _ _)] at hmatch
        refine pend_max _ tag _ hP ?_ (by omega) ?_
        · rw [List.length_append, hb1len]
          omega
        · rw [List.length_append, hb1len]
          exact hmatch
      · exfalso
        have hwP : (w ++ s).length - pendingTagSuffix (w ++ s) tag
            = w.length - (pendingTagSuffix (w ++ s) tag - s.length) := by
          rw [List.length_append]
          omega
        rw [hwP, drop_append_left (Nat.sub_le _ _)] at hmatch
        have hxlen : (w.drop (w.length - (pendingTagSuffix (w ++ s) tag - s.length))).length
            = pendingTagSuffix (w ++ s) tag - s.length := by
          rw [List.length_drop]
          omega
        have htake := congrArg
          (List.take (pendingTagSuffix (w ++ s) tag - s.length)) hmatch
        rw [List.take_append_eq_append_take, hxlen, Nat.sub_self, List.take_zero,
          List.append_nil, List.take_take, Nat.min_eq_left (by omega)] at htake
        have hx : ∀ (x : Str), x.length = pendingTagSuffix (w ++ s) tag - s.length →
            x.take (pendingTagSuffix (w ++ s) tag - s.length) = x := by
          intro x hxl
          rw [← hxl, List.take_length]
        rw [hx _ hxlen] at htake
        have hmax := pend_max w tag (pendingTagSuffix (w ++ s) tag - s.length)
          (by omega) (by omega) (by omega) htake
        omega
  · rcases Nat.eq_zero_or_pos
        (pendingTagSuffix (w.drop (w.length - pendingTagSuffix w tag) ++ s) tag)
      with hp2 | hp2
    · rw [hp2]; exact Nat.zero_le _
    · have hmatch := pend_match _ tag hp2
      have hp2le := pend_le_buf (w.drop (w.length - pendingTagSuffix w tag) ++ s) tag
      have hp2lt := pend_lt_tag (w.drop (w.length - pendingTagSuffix w tag) ++ s) tag htlen
      rw [List.length_append, hb1len] at hp2le
      refine pend_max (w ++ s) tag _ hp2 ?_ (by omega) ?_
      · rw [List.length_append]
        omega
      · have hidx : (w ++ s).length
            - pendingTagSuffix (w.drop (w.length - pendingTagSuffix w tag) ++ s) tag
            = (w.length - pendingTagSuffix w tag)
              + ((w.drop (w.length - pendingTagSuffix w tag) ++ s).length
                - pendingTagSuffix (w.drop (w.length - pendingTagSuffix w tag) ++ s) tag) := by
          rw [List.length_append, List.length_append, hb1len]
          omega
        rw [hidx, drop_append_shift (Nat.sub_le _ _)]
        exact hmatch

theorem guard_td (l : Str) (n : Nat) (hn : n ≤ l.length) :
    (if 0 < n then [ThinkEv.textDelta (l.take n)] else []) = tdOpt (l.take n) := by
  rcases Nat.eq_zero_or_pos n with h | h
  · subst h
    simp [tdOpt]
  · have hne : l.take n ≠ [] := by
      intro hc
      have hlen := congrArg List.length hc
      rw [List.length_take, Nat.min_eq_left hn] at hlen
      simp at hlen
      omega
    rw [if_pos h, tdOpt, if_neg hne]

theorem guard_th (l : Str) (n : Nat) (hn : n ≤ l.length) :
    (if 0 < n then [ThinkEv.thinkDelta (l.take n)] else []) = thOpt (l.take n) := by
  rcases Nat.eq_zero_or_pos n with h | h
  · subst h
    simp [thOpt]
  · have hne : l.take n ≠ [] := by
      intro hc
      have hlen := congrArg List.length hc
      rw [List.length_take, Nat.min_eq_left hn] at hlen
      simp at hlen
      omega
    rw [if_pos h, thOpt, if_neg hne]

theorem handlerFlush_false (x : Str) : handlerFlush (false, x) = tdOpt x := by
  rw [handlerFlush, tdOpt]
  by_cases h : x = [] <;> simp [h]

theorem handlerFlush_true (x : Str) : handlerFlush (true, x) = thOpt x := by
  rw [handlerFlush, thOpt]
  by_cases h : x = [] <;> simp [h]

end KiroGate

namespace KiroGate

theorem take_all_ge : ∀ (x : Str) (q : Nat), x.length ≤ q → x.take q = x
  | [], _, _ => by simp
  | c :: cs, 0, h => by simp at h
  | c :: cs, q + 1, h => by
    rw [List.take_succ_cons, take_all_ge cs q (by simp at h; omega)]

theorem take_append_left {w s : Str} {q : Nat} (hq : q ≤ w.length) :
    (w ++ s).take q = w.take q := by
  rw [List.take_append_eq_append_take]
  have h0 : q - w.length = 0 := by omega
  rw [h0]
  simp

theorem take_append_shift {w s : Str} {k j : Nat} (hk : k ≤ w.length) :
    (w ++ s).take (k + j) = w.take k ++ (w.drop k ++ s).take j := by
  have hsplit : w ++ s = w.take k ++ (w.drop k ++ s) := by
    rw [← List.append_assoc, List.take_append_drop]
  rw [hsplit, List.take_append_eq_append_take,
    take_all_ge (w.take k) (k + j) (by rw [List.length_take]; omega)]
  have hlen : (w.take k).length = k := by
    rw [List.length_take]
    omega
  rw [hlen]
  congr 2
  omega

theorem ccons_start (m : List ThinkEv) :
    ccons ThinkEv.thinkStart m = ThinkEv.thinkStart :: m := by
  cases m with
  | nil => rfl
  | cons e r => cases e <;> rfl

theorem ccons_stop (m : List ThinkEv) :
    ccons ThinkEv.thinkStop m = ThinkEv.thinkStop :: m := by
  cases m with
  | nil => rfl
  | cons e r => cases e <;> rfl

theorem canon_cons (e : ThinkEv) (l : List ThinkEv) : canon (e :: l) = ccons e (canon l) :=
  rfl

theorem canon_tdOpt_pair (x y : Str) (C : List ThinkEv) :
    canon (tdOpt x ++ (tdOpt y ++ C)) = canon (tdOpt (x ++ y) ++ C) := by
  by_cases hx : x = []
  · subst hx
    simp [tdOpt]
  · by_cases hy : y = []
    · subst hy
      simp [tdOpt, hx]
    · have hxy : x ++ y ≠ [] := fun hc => hx (List.append_eq_nil.mp hc).1
      rw [tdOpt, if_neg hx, tdOpt, if_neg hy, tdOpt, if_neg hxy]
      show canon (ThinkEv.textDelta x :: (ThinkEv.textDelta y :: C))
        = canon (ThinkEv.textDelta (x ++ y) :: C)
      rw [canon_cons, canon_cons, canon_cons, ccons_td_ccons_td]

theorem canon_thOpt_pair (x y : Str) (C : List ThinkEv) :
    canon (thOpt x ++ (thOpt y ++ C)) = canon (thOpt (x ++ y) ++ C) := by
  by_cases hx : x = []
  · subst hx
    simp [thOpt]
  · by_cases hy : y = []
    · subst hy
      simp [thOpt, hx]
    · have hxy : x ++ y ≠ [] := fun hc => hx (List.append_eq_nil.mp hc).1
      rw [thOpt, if_neg hx, thOpt, if_neg hy, thOpt, if_neg hxy]
      show canon (ThinkEv.thinkDelta x :: (ThinkEv.thinkDelta y :: C))
        = canon (ThinkEv.thinkDelta (x ++ y) :: C)
      rw [canon_cons, canon_cons, canon_cons, ccons_th_ccons_th]

end KiroGate

namespace KiroGate

theorem extend_false_none (buf s : Str)
    (hf : findTag THINKING_START_TAG buf = none) :
    (processBuf false (buf ++ s)).1
      = (processBuf (processBuf false buf).1 ((processBuf false buf).2.1 ++ s)).1
    ∧ (processBuf false (buf ++ s)).2.1
      = (processBuf (processBuf false buf).1 ((processBuf false buf).2.1 ++ s)).2.1
    ∧ canon (processBuf false (buf ++ s)).2.2
      = canon ((processBuf false buf).2.2
          ++ (processBuf (processBuf false buf).1 ((processBuf false buf).2.1 ++ s)).2.2) := by
  have hk : buf.length - pendingTagSuffix buf THINKING_START_TAG ≤ buf.length := Nat.sub_le _ _
  rw [processBuf_false_none hf]
  dsimp only
  cases hj : findTag THINKING_START_TAG
      (buf.drop (buf.length - pendingTagSuffix buf THINKING_START_TAG) ++ s) with
  | some j =>
    have hext := findTag_append_shift_some s (by decide) hf hj
    have hbound2 := findTag_add_length_le hj
    have hbound1 := findTag_add_length_le hext
    rw [processBuf_false_some hext, processBuf_false_some hj]
    dsimp only
    rw [Nat.add_assoc, drop_append_shift hk]
    refine ⟨rfl, rfl, ?_⟩
    rw [guard_td (buf ++ s)
      (buf.length - pendingTagSuffix buf THINKING_START_TAG + j) (by omega)]
    rw [take_append_shift hk]
    rw [guard_td buf (buf.length - pendingTagSuffix buf THINKING_START_TAG) hk]
    rw [guard_td (buf.drop (buf.length - pendingTagSuffix buf THINKING_START_TAG) ++ s) j
      (by omega)]
    exact (canon_tdOpt_pair _ _ _).symm
  | none =>
    have hext := findTag_append_shift_none s (by decide) hf hj
    have hpend := pend_append s (by decide) hf
    have hp2le := pend_le_buf
      (buf.drop (buf.length - pendingTagSuffix buf THINKING_START_TAG) ++ s)
      THINKING_START_TAG
    have hplew := pend_le_buf buf THINKING_START_TAG
    rw [List.length_append, List.length_drop] at hp2le
    rw [processBuf_false_none hext, processBuf_false_none hj]
    dsimp only
    have hK : (buf ++ s).length - pendingTagSuffix (buf ++ s) THINKING_START_TAG
        = (buf.length - pendingTagSuffix buf THINKING_START_TAG)
          + ((buf.drop (buf.length - pendingTagSuffix buf THINKING_START_TAG) ++ s).length
            - pendingTagSuffix
                (buf.drop (buf.length - pendingTagSuffix buf THINKING_START_TAG) ++ s)
                THINKING_START_TAG) := by
      rw [hpend, List.length_append, List.length_append, List.length_drop]
      omega
    rw [hK, drop_append_shift hk]
    refine ⟨rfl, rfl, ?_⟩
    rw [guard_td (buf ++ s)
      (buf.length - pendingTagSuffix buf THINKING_START_TAG
        + ((buf.drop (buf.length - pendingTagSuffix buf THINKING_START_TAG) ++ s).length
          - pendingTagSuffix
              (buf.drop (buf.length - pendingTagSuffix buf THINKING_START_TAG) ++ s)
              THINKING_START_TAG))
      (by rw [List.length_append, List.length_append, List.length_drop]; omega)]
    rw [take_append_shift hk]
    rw [guard_td buf (buf.length - pendingTagSuffix buf THINKING_START_TAG) hk]
    rw [guard_td (buf.drop (buf.length - pendingTagSuffix buf THINKING_START_TAG) ++ s)
      ((buf.drop (buf.length - pendingTagSuffix buf THINKING_START_TAG) ++ s).length
        - pendingTagSuffix
            (buf.drop (buf.length - pendingTagSuffix buf THINKING_START_TAG) ++ s)
            THINKING_START_TAG)
      (Nat.sub_le _ _)]
    have hpair := canon_tdOpt_pair
      (buf.take (buf.length - pendingTagSuffix buf THINKING_START_TAG))
      ((buf.drop (buf.length - pendingTagSuffix buf THINKING_START_TAG) ++ s).take
        ((buf.drop (buf.length - pendingTagSuffix buf THINKING_START_TAG) ++ s).length
          - pendingTagSuffix
              (buf.drop (buf.length - pendingTagSuffix buf THINKING_START_TAG) ++ s)
              THINKING_START_TAG))
      []
    rw [List.append_nil, List.append_nil] at hpair
    exact hpair.symm

theorem extend_true_none (buf s : Str)
    (hf : findTag THINKING_END_TAG buf = none) :
    (processBuf true (buf ++ s)).1
      = (processBuf (processBuf true buf).1 ((processBuf true buf).2.1 ++ s)).1
    ∧ (processBuf true (buf ++ s)).2.1
      = (processBuf (processBuf true buf).1 ((processBuf true buf).2.1 ++ s)).2.1
    ∧ canon (processBuf true (buf ++ s)).2.2
      = canon ((processBuf true buf).2.2
          ++ (processBuf (processBuf true buf).1 ((processBuf true buf).2.1 ++ s)).2.2) := by
  have hk : buf.length - pendingTagSuffix buf THINKING_END_TAG ≤ buf.length := Nat.sub_le _ _
  rw [processBuf_true_none hf]
  dsimp only
  cases hj : findTag THINKING_END_TAG
      (buf.drop (buf.length - pendingTagSuffix buf THINKING_END_TAG) ++ s) with
  | some j =>
    have hext := findTag_append_shift_some s (by decide) hf hj
    have hbound2 := findTag_add_length_le hj
    have hbound1 := findTag_add_length_le hext
    rw [processBuf_true_some hext, processBuf_true_some hj]
    dsimp only
    rw [Nat.add_assoc, drop_append_shift hk]
    refine ⟨rfl, rfl, ?_⟩
    rw [guard_th (buf ++ s)
      (buf.length - pendingTagSuffix buf THINKING_END_TAG + j) (by omega)]
    rw [take_append_shift hk]
    rw [guard_th buf (buf.length - pendingTagSuffix buf THINKING_END_TAG) hk]
    rw [guard_th (buf.drop (buf.length - pendingTagSuffix buf THINKING_END_TAG) ++ s) j
      (by omega)]
    exact (canon_thOpt_pair _ _ _).symm
  | none =>
    have hext := findTag_append_shift_none s (by decide) hf hj
    have hpend := pend_append s (by decide) hf
    have hp2le := pend_le_buf
      (buf.drop (buf.length - pendingTagSuffix buf THINKING_END_TAG) ++ s)
      THINKING_END_TAG
    have hplew := pend_le_buf buf THINKING_END_TAG
    rw [List.length_append, List.length_drop] at hp2le
    rw [processBuf_true_none hext, processBuf_true_none hj]
    dsimp only
    have hK : (buf ++ s).length - pendingTagSuffix (buf ++ s) THINKING_END_TAG
        = (buf.length - pendingTagSuffix buf THINKING_END_TAG)
          + ((buf.drop (buf.length - pendingTagSuffix buf THINKING_END_TAG) ++ s).length
            - pendingTagSuffix
                (buf.drop (buf.length - pendingTagSuffix buf THINKING_END_TAG) ++ s)
                THINKING_END_TAG) := by
      rw [hpend, List.length_append, List.length_append, List.length_drop]
      omega
    rw [hK, drop_append_shift hk]
    refine ⟨rfl, rfl, ?_⟩
    rw [guard_th (buf ++ s)
      (buf.length - pendingTagSuffix buf THINKING_END_TAG
        + ((buf.drop (buf.length - pendingTagSuffix buf THINKING_END_TAG) ++ s).length
          - pendingTagSuffix
              (buf.drop (buf.length - pendingTagSuffix buf THINKING_END_TAG) ++ s)
              THINKING_END_TAG))
      (by rw [List.length_append, List.length_append, List.length_drop]; omega)]
    rw [take_append_shift hk]
    rw [guard_th buf (buf.length - pendingTagSuffix buf THINKING_END_TAG) hk]
    rw [guard_th (buf.drop (buf.length - pendingTagSuffix buf THINKING_END_TAG) ++ s)
      ((buf.drop (buf.length - pendingTagSuffix buf THINKING_END_TAG) ++ s).length
        - pendingTagSuffix
            (buf.drop (buf.length - pendingTagSuffix buf THINKING_END_TAG) ++ s)
            THINKING_END_TAG)
      (Nat.sub_le _ _)]
    have hpair := canon_thOpt_pair
      (buf.take (buf.length - pendingTagSuffix buf THINKING_END_TAG))
      ((buf.drop (buf.length - pendingTagSuffix buf THINKING_END_TAG) ++ s).take
        ((buf.drop (buf.length - pendingTagSuffix buf THINKING_END_TAG) ++ s).length
          - pendingTagSuffix
              (buf.drop (buf.length - pendingTagSuffix buf THINKING_END_TAG) ++ s)
              THINKING_END_TAG))
      []
    rw [List.append_nil, List.append_nil] at hpair
    exact hpair.symm

end KiroGate

namespace KiroGate

/-- Feeding `buf ++ s` in one go agrees — in final mode, final buffer, and
events up to delta merging — with feeding `buf`, then feeding `s` on top of
the leftover buffer.  This is the parser's chunk-composition property. -/
theorem processBuf_extend : ∀ (n : Nat) (buf : Str), buf.length ≤ n →
    ∀ (m : Bool) (s : Str),
    (processBuf m (buf ++ s)).1
      = (processBuf (processBuf m buf).1 ((processBuf m buf).2.1 ++ s)).1
    ∧ (processBuf m (buf ++ s)).2.1
      = (processBuf (processBuf m buf).1 ((processBuf m buf).2.1 ++ s)).2.1
    ∧ canon (processBuf m (buf ++ s)).2.2
      = canon ((processBuf m buf).2.2
          ++ (processBuf (processBuf m buf).1 ((processBuf m buf).2.1 ++ s)).2.2) := by
  intro n
  induction n with
  | zero =>
    intro buf hlen m s
    have hb : buf = [] := List.eq_nil_of_length_eq_zero (by omega)
    subst hb
    have h0 : processBuf m [] = (m, [], []) := by cases m <;> rfl
    rw [h0]
    dsimp only
    exact ⟨rfl, rfl, rfl⟩
  | succ nn ih =>
    intro buf hlen m s
    cases m with
    | false =>
      cases hf : findTag THINKING_START_TAG buf with
      | none => exact extend_false_none buf s hf
      | some i =>
        have hle := findTag_add_length_le hf
        have hST : THINKING_START_TAG.length = 10 := by decide
        have hext := findTag_append_some s (by decide) hf
        have hih := ih (buf.drop (i + THINKING_START_TAG.length))
          (by rw [List.length_drop]; omega) true s
        rw [processBuf_false_some hext, processBuf_false_some hf]
        dsimp only
        rw [drop_append_left (by omega), take_append_left (by omega)]
        refine ⟨hih.1, hih.2.1, ?_⟩
        rw [guard_td buf i (by omega)]
        rw [List.append_assoc, List.cons_append]
        apply canon_cong_left
        rw [canon_cons, canon_cons, ccons_start, ccons_start, hih.2.2]
    | true =>
      cases hf : findTag THINKING_END_TAG buf with
      | none => exact extend_true_none buf s hf
      | some i =>
        have hle := findTag_add_length_le hf
        have hST : THINKING_END_TAG.length = 11 := by decide
        have hext := findTag_append_some s (by decide) hf
        have hih := ih (buf.drop (i + THINKING_END_TAG.length))
          (by rw [List.length_drop]; omega) false s
        rw [processBuf_true_some hext, processBuf_true_some hf]
        dsimp only
        rw [drop_append_left (by omega), take_append_left (by omega)]
        refine ⟨hih.1, hih.2.1, ?_⟩
        rw [guard_th buf i (by omega)]
        rw [List.append_assoc, List.cons_append]
        apply canon_cong_left
        rw [canon_cons, canon_cons, ccons_stop, ccons_stop, hih.2.2]

end KiroGate

namespace KiroGate

/-- The tag the handler scans for in the given mode. -/
def modeTag (m : Bool) : Str := if m then THINKING_END_TAG else THINKING_START_TAG

theorem processBuf_prefix_noop_false (buf : Str)
    (h : buf = THINKING_START_TAG.take buf.length)
    (hlt : buf.length < THINKING_START_TAG.length) :
    processBuf false buf = (false, buf, []) := by
  have hnone : findTag THINKING_START_TAG buf = none := by
    rw [findTag_eq_none_iff (by decide)]
    intro j hcontra
    have hlen := isPrefixOf_length_le hcontra
    rw [List.length_drop] at hlen
    omega
  rw [processBuf_false_none hnone]
  have hpge : buf.length ≤ pendingTagSuffix buf THINKING_START_TAG := by
    rcases Nat.eq_zero_or_pos buf.length with h0 | h0
    · omega
    · refine pend_max buf THINKING_START_TAG buf.length h0 (le_refl _) (by omega) ?_
      rw [Nat.sub_self, List.drop_zero]
      exact h
  have hk0 : buf.length - pendingTagSuffix buf THINKING_START_TAG = 0 := by omega
  rw [hk0]
  simp

theorem processBuf_prefix_noop_true (buf : Str)
    (h : buf = THINKING_END_TAG.take buf.length)
    (hlt : buf.length < THINKING_END_TAG.length) :
    processBuf true buf = (true, buf, []) := by
  have hnone : findTag THINKING_END_TAG buf = none := by
    rw [findTag_eq_none_iff (by decide)]
    intro j hcontra
    have hlen := isPrefixOf_length_le hcontra
    rw [List.length_drop] at hlen
    omega
  rw [processBuf_true_none hnone]
  have hpge : buf.length ≤ pendingTagSuffix buf THINKING_END_TAG := by
    rcases Nat.eq_zero_or_pos buf.length with h0 | h0
    · omega
    · refine pend_max buf THINKING_END_TAG buf.length h0 (le_refl _) (by omega) ?_
      rw [Nat.sub_self, List.drop_zero]
      exact h
  have hk0 : buf.length - pendingTagSuffix buf THINKING_END_TAG = 0 := by omega
  rw [hk0]
  simp

theorem processBuf_noop (m : Bool) (buf : Str)
    (h : buf = (modeTag m).take buf.length) (hlt : buf.length < (modeTag m).length) :
    processBuf m buf = (m, buf, []) := by
  cases m with
  | false => exact processBuf_prefix_noop_false buf h hlt
  | true => exact processBuf_prefix_noop_true buf h hlt

/-- What any run leaves in the buffer is a proper prefix of the tag awaited in
the final mode. -/
theorem processBuf_residual : ∀ (n : Nat) (buf : Str), buf.length ≤ n → ∀ (m : Bool),
    (processBuf m buf).2.1 = (modeTag (processBuf m buf).1).take (processBuf m buf).2.1.length
    ∧ (processBuf m buf).2.1.length < (modeTag (processBuf m buf).1).length := by
  intro n
  induction n with
  | zero =>
    intro buf hlen m
    have hb : buf = [] := List.eq_nil_of_length_eq_zero (by omega)
    subst hb
    have h0 : processBuf m [] = (m, [], []) := by cases m <;> rfl
    rw [h0]
    cases m <;> exact ⟨rfl, by decide⟩
  | succ nn ih =>
    intro buf hlen m
    cases m with
    | false =>
      cases hf : findTag THINKING_START_TAG buf with
      | some i =>
        have hle := findTag_add_length_le hf
        have hST : THINKING_START_TAG.length = 10 := by decide
        rw [processBuf_false_some hf]
        exact ih (buf.drop (i + THINKING_START_TAG.length))
          (by rw [List.length_drop]; omega) true
      | none =>
        have hplew := pend_le_buf buf THINKING_START_TAG
        rw [processBuf_false_none hf]
        dsimp only
        have hlend : (buf.drop (buf.length - pendingTagSuffix buf THINKING_START_TAG)).length
            = pendingTagSuffix buf THINKING_START_TAG := by
          rw [List.length_drop]
          omega
        rw [hlend]
        constructor
        · rcases Nat.eq_zero_or_pos (pendingTagSuffix buf THINKING_START_TAG) with h0 | h0
          · rw [h0]
            simp [modeTag]
          · exact pend_match buf THINKING_START_TAG h0
        · exact pend_lt_tag buf THINKING_START_TAG (by decide)
    | true =>
      cases hf : findTag THINKING_END_TAG buf with
      | some i =>
        have hle := findTag_add_length_le hf
        have hET : THINKING_END_TAG.length = 11 := by decide
        rw [processBuf_true_some hf]
        exact ih (buf.drop (i + THINKING_END_TAG.length))
          (by rw [List.length_drop]; omega) false
      | none =>
        have hplew := pend_le_buf buf THINKING_END_TAG
        rw [processBuf_true_none hf]
        dsimp only
        have hlend : (buf.drop (buf.length - pendingTagSuffix buf THINKING_END_TAG)).length
            = pendingTagSuffix buf THINKING_END_TAG := by
          rw [List.length_drop]
          omega
        rw [hlend]
        constructor
        · rcases Nat.eq_zero_or_pos (pendingTagSuffix buf THINKING_END_TAG) with h0 | h0
          · rw [h0]
            simp [modeTag]
          · exact pend_match buf THINKING_END_TAG h0
        · exact pend_lt_tag buf THINKING_END_TAG (by decide)

/-- Running all chunks through `process_content` in order, from the fresh
handler state. -/
def runChunksGo (st : HandlerState) : List Str → List ThinkEv × HandlerState
  | [] => ([], st)
  | c :: rest =>
    let r := process_content true st c
    let r2 := runChunksGo r.1 rest
    (r.2 ++ r2.1, r2.2)

/-- A whole streamed parse: all chunks, then `flush`. -/
def runChunks (chunks : List Str) : List ThinkEv :=
  (runChunksGo (false, []) chunks).1 ++ handlerFlush (runChunksGo (false, []) chunks).2

/-- The single-chunk reference parse of a complete text. -/
def parseAll (t : Str) : List ThinkEv :=
  (processBuf false t).2.2
    ++ handlerFlush ((processBuf false t).1, (processBuf false t).2.1)

theorem runChunksGo_canon : ∀ (chunks : List Str) (m : Bool) (buf : Str),
    processBuf m buf = (m, buf, []) →
    (runChunksGo (m, buf) chunks).2.1 = (processBuf m (buf ++ chunks.flatten)).1
    ∧ (runChunksGo (m, buf) chunks).2.2 = (processBuf m (buf ++ chunks.flatten)).2.1
    ∧ canon (runChunksGo (m, buf) chunks).1
        = canon (processBuf m (buf ++ chunks.flatten)).2.2 := by
  intro chunks
  induction chunks with
  | nil =>
    intro m buf hres
    rw [runChunksGo]
    dsimp only
    rw [List.flatten_nil, List.append_nil, hres]
    exact ⟨rfl, rfl, rfl⟩
  | cons c rest ih =>
    intro m buf hres
    have hpc : process_content true (m, buf) c
        = (((processBuf m (buf ++ c)).1, (processBuf m (buf ++ c)).2.1),
           (processBuf m (buf ++ c)).2.2) := by
      rw [process_content, if_neg (by decide)]
    have hchar := processBuf_residual (buf ++ c).length (buf ++ c) (le_refl _) m
    have hnoop : processBuf (processBuf m (buf ++ c)).1 (processBuf m (buf ++ c)).2.1
        = ((processBuf m (buf ++ c)).1, (processBuf m (buf ++ c)).2.1, []) :=
      processBuf_noop _ _ hchar.1 hchar.2
    have hih := ih (processBuf m (buf ++ c)).1 (processBuf m (buf ++ c)).2.1 hnoop
    have hext := processBuf_extend (buf ++ c).length (buf ++ c) (le_refl _) m rest.flatten
    rw [runChunksGo]
    dsimp only
    rw [hpc]
    dsimp only
    rw [List.flatten_cons, ← List.append_assoc]
    refine ⟨?_, ?_, ?_⟩
    · rw [hih.1, hext.1]
    · rw [hih.2.1, hext.2.1]
    · rw [hext.2.2]
      exact canon_cong_left _ hih.2.2

/-- Chunk boundaries do not matter: the canonical event stream of any chunked
run equals that of the single-chunk run on the concatenated text. -/
theorem runChunks_canon (chunks : List Str) :
    canon (runChunks chunks) = canon (parseAll chunks.flatten) := by
  have h0 : processBuf false [] = (false, [], []) := rfl
  have hgo := runChunksGo_canon chunks false [] h0
  rw [List.nil_append] at hgo
  rw [runChunks, parseAll]
  have hflush : handlerFlush (runChunksGo (false, []) chunks).2
      = handlerFlush ((processBuf false chunks.flatten).1,
          (processBuf false chunks.flatten).2.1) := by
    have hst : (runChunksGo (false, []) chunks).2
        = ((processBuf false chunks.flatten).1, (processBuf false chunks.flatten).2.1) := by
      rcases hpair : (runChunksGo (false, []) chunks).2 with ⟨a, b⟩
      rw [hpair] at hgo
      rw [Prod.mk.injEq]
      exact ⟨hgo.1, hgo.2.1⟩
    rw [hst]
  rw [hflush]
  exact canon_cong_right _ hgo.2.2

end KiroGate

namespace KiroGate

theorem ccons_nil (e : ThinkEv) : ccons e [] = [e] := by cases e <;> rfl

theorem ccons_td_td (x y : Str) (r : List ThinkEv) :
    ccons (.textDelta x) (.textDelta y :: r) = .textDelta (x ++ y) :: r := rfl

theorem ccons_td_th (x y : Str) (r : List ThinkEv) :
    ccons (.textDelta x) (.thinkDelta y :: r) = .textDelta x :: .thinkDelta y :: r := rfl

theorem ccons_td_start (x : Str) (r : List ThinkEv) :
    ccons (.textDelta x) (.thinkStart :: r) = .textDelta x :: .thinkStart :: r := rfl

theorem ccons_td_stop (x : Str) (r : List ThinkEv) :
    ccons (.textDelta x) (.thinkStop :: r) = .textDelta x :: .thinkStop :: r := rfl

theorem ccons_th_th (x y : Str) (r : List ThinkEv) :
    ccons (.thinkDelta x) (.thinkDelta y :: r) = .thinkDelta (x ++ y) :: r := rfl

theorem ccons_th_td (x y : Str) (r : List ThinkEv) :
    ccons (.thinkDelta x) (.textDelta y :: r) = .thinkDelta x :: .textDelta y :: r := rfl

theorem ccons_th_start (x : Str) (r : List ThinkEv) :
    ccons (.thinkDelta x) (.thinkStart :: r) = .thinkDelta x :: .thinkStart :: r := rfl

theorem ccons_th_stop (x : Str) (r : List ThinkEv) :
    ccons (.thinkDelta x) (.thinkStop :: r) = .thinkDelta x :: .thinkStop :: r := rfl

theorem canon_final_shape (pre mid a b : Str) :
    canon (tdOpt pre ++ (ThinkEv.thinkStart
        :: (thOpt mid ++ (ThinkEv.thinkStop :: (tdOpt a ++ tdOpt b)))))
      = tdOpt pre ++ (ThinkEv.thinkStart
          :: (thOpt mid ++ (ThinkEv.thinkStop :: tdOpt (a ++ b)))) := by
  by_cases hp : pre = [] <;> by_cases hm : mid = [] <;> by_cases ha : a = [] <;>
    by_cases hb : b = [] <;>
    simp [tdOpt, thOpt, hp, hm, ha, hb, List.append_eq_nil, canon, ccons_nil,
      ccons_td_td, ccons_td_start, ccons_td_stop, ccons_td_th, ccons_th_th,
      ccons_th_start, ccons_th_stop, ccons_th_td, ccons_start, ccons_stop]

theorem guard_len_td (x : Str) :
    (if 0 < x.length then [ThinkEv.textDelta x] else []) = tdOpt x := by
  by_cases h : x = []
  · subst h
    simp [tdOpt]
  · rw [if_pos (List.length_pos.mpr h), tdOpt, if_neg h]

theorem guard_len_th (x : Str) :
    (if 0 < x.length then [ThinkEv.thinkDelta x] else []) = thOpt x := by
  by_cases h : x = []
  · subst h
    simp [thOpt]
  · rw [if_pos (List.length_pos.mpr h), thOpt, if_neg h]

theorem drop_append_len {a b : Str} (n : Nat) :
    (a ++ b).drop (a.length + n) = b.drop n := by
  rw [List.drop_append_eq_append_drop]
  rw [List.drop_eq_nil_of_le (by omega : a.length ≤ a.length + n)]
  have h2 : a.length + n - a.length = n := by omega
  rw [h2]
  simp

/-- One complete pair in a single run: the canonical output on
`pre <thinking> mid </thinking> post` (first occurrences at the shown
positions, no further start tag in the tail). -/
theorem parseAll_one_pair (pre mid post : Str)
    (hpre : findTag THINKING_START_TAG
        (pre ++ (THINKING_START_TAG ++ (mid ++ (THINKING_END_TAG ++ post))))
      = some pre.length)
    (hmid : findTag THINKING_END_TAG (mid ++ (THINKING_END_TAG ++ post)) = some mid.length)
    (hpost : findTag THINKING_START_TAG post = none) :
    canon (parseAll (pre ++ (THINKING_START_TAG ++ (mid ++ (THINKING_END_TAG ++ post)))))
      = tdOpt pre ++ (ThinkEv.thinkStart
          :: (thOpt mid ++ (ThinkEv.thinkStop :: tdOpt post))) := by
  have hdrop1 : (pre ++ (THINKING_START_TAG ++ (mid ++ (THINKING_END_TAG ++ post)))).drop
      (pre.length + THINKING_START_TAG.length) = mid ++ (THINKING_END_TAG ++ post) := by
    rw [drop_append_len, List.drop_left]
  have hdrop2 : (mid ++ (THINKING_END_TAG ++ post)).drop
      (mid.length + THINKING_END_TAG.length) = post := by
    rw [drop_append_len, List.drop_left]
  rw [parseAll, processBuf_false_some hpre, hdrop1, processBuf_true_some hmid, hdrop2,
    processBuf_false_none hpost]
  dsimp only
  rw [List.take_left, List.take_left]
  rw [guard_len_td pre, guard_len_th mid]
  rw [guard_td post (post.length - pendingTagSuffix post THINKING_START_TAG) (Nat.sub_le _ _)]
  rw [handlerFlush_false]
  simp only [List.append_assoc, List.cons_append]
  rw [canon_final_shape, List.take_append_drop]

theorem count_start_tdOpt (x : Str) : (tdOpt x).count ThinkEv.thinkStart = 0 := by
  by_cases h : x = []
  · simp [tdOpt, h]
  · rw [tdOpt, if_neg h]
    rfl

theorem count_start_thOpt (x : Str) : (thOpt x).count ThinkEv.thinkStart = 0 := by
  by_cases h : x = []
  · simp [thOpt, h]
  · rw [thOpt, if_neg h]
    rfl

theorem count_stop_tdOpt (x : Str) : (tdOpt x).count ThinkEv.thinkStop = 0 := by
  by_cases h : x = []
  · simp [tdOpt, h]
  · rw [tdOpt, if_neg h]
    rfl

theorem count_stop_thOpt (x : Str) : (thOpt x).count ThinkEv.thinkStop = 0 := by
  by_cases h : x = []
  · simp [thOpt, h]
  · rw [thOpt, if_neg h]
    rfl

theorem count_start_shape (pre mid post : Str) :
    (tdOpt pre ++ (ThinkEv.thinkStart
        :: (thOpt mid ++ (ThinkEv.thinkStop :: tdOpt post)))).count ThinkEv.thinkStart
      = 1 := by
  rw [List.count_append, count_start_tdOpt, List.count_cons, List.count_append,
    count_start_thOpt, List.count_cons, count_start_tdOpt]
  decide

theorem count_stop_shape (pre mid post : Str) :
    (tdOpt pre ++ (ThinkEv.thinkStart
        :: (thOpt mid ++ (ThinkEv.thinkStop :: tdOpt post)))).count ThinkEv.thinkStop
      = 1 := by
  rw [List.count_append, count_stop_tdOpt, List.count_cons, List.count_append,
    count_stop_thOpt, List.count_cons, count_stop_tdOpt]
  decide

theorem thinkContent_append : ∀ (a b : List ThinkEv),
    thinkContent (a ++ b) = thinkContent a ++ thinkContent b := by
  intro a
  induction a with
  | nil => intro b; simp [thinkContent]
  | cons e r ih =>
    intro b
    cases e with
    | thinkDelta s =>
      show s ++ thinkContent (r ++ b) = (s ++ thinkContent r) ++ thinkContent b
      rw [ih, List.append_assoc]
    | textDelta s =>
      show thinkContent (r ++ b) = thinkContent r ++ thinkContent b
      exact ih b
    | thinkStart =>
      show thinkContent (r ++ b) = thinkContent r ++ thinkContent b
      exact ih b
    | thinkStop =>
      show thinkContent (r ++ b) = thinkContent r ++ thinkContent b
      exact ih b

theorem textContent_append : ∀ (a b : List ThinkEv),
    textContent (a ++ b) = textContent a ++ textContent b := by
  intro a
  induction a with
  | nil => intro b; simp [textContent]
  | cons e r ih =>
    intro b
    cases e with
    | textDelta s =>
      show s ++ textContent (r ++ b) = (s ++ textContent r) ++ textContent b
      rw [ih, List.append_assoc]
    | thinkDelta s =>
      show textContent (r ++ b) = textContent r ++ textContent b
      exact ih b
    | thinkStart =>
      show textContent (r ++ b) = textContent r ++ textContent b
      exact ih b
    | thinkStop =>
      show textContent (r ++ b) = textContent r ++ textContent b
      exact ih b

theorem thinkContent_cons_start (l : List ThinkEv) :
    thinkContent (ThinkEv.thinkStart :: l) = thinkContent l := rfl

theorem thinkContent_cons_stop (l : List ThinkEv) :
    thinkContent (ThinkEv.thinkStop :: l) = thinkContent l := rfl

theorem textContent_cons_start (l : List ThinkEv) :
    textContent (ThinkEv.thinkStart :: l) = textContent l := rfl

theorem textContent_cons_stop (l : List ThinkEv) :
    textContent (ThinkEv.thinkStop :: l) = textContent l := rfl

theorem thinkContent_tdOpt (x : Str) : thinkContent (tdOpt x) = [] := by
  by_cases h : x = []
  · simp [tdOpt, h, thinkContent]
  · rw [tdOpt, if_neg h]
    rfl

theorem thinkContent_thOpt (x : Str) : thinkContent (thOpt x) = x := by
  by_cases h : x = []
  · simp [thOpt, h, thinkContent]
  · rw [thOpt, if_neg h]
    show x ++ [] = x
    exact List.append_nil x

theorem textContent_tdOpt (x : Str) : textContent (tdOpt x) = x := by
  by_cases h : x = []
  · simp [tdOpt, h, textContent]
  · rw [tdOpt, if_neg h]
    show x ++ [] = x
    exact List.append_nil x

theorem textContent_thOpt (x : Str) : textContent (thOpt x) = [] := by
  by_cases h : x = []
  · simp [thOpt, h, textContent]
  · rw [thOpt, if_neg h]
    rfl

/-- **C4.** Chunk-split safety of the thinking parser: for every text of the
form `pre <thinking> mid </thinking> post` (first tag occurrences at the shown
positions, no further start tag in `post`) and every way of cutting it into
chunks, running the chunks through `process_content` then `flush` yields,
after merging adjacent same-type deltas, exactly
text(`pre`), one `thinking.start`, thinking(`mid`), one `thinking.stop`,
text(`post`) — independent of the chunk boundaries; the thinking deltas
concatenate to `mid`, the text deltas to `pre ++ post`, so no input bytes are
lost. -/
theorem c4_chunk_split_safety (pre mid post : Str) (chunks : List Str)
    (hflat : chunks.flatten
      = pre ++ (THINKING_START_TAG ++ (mid ++ (THINKING_END_TAG ++ post))))
    (hpre : findTag THINKING_START_TAG
        (pre ++ (THINKING_START_TAG ++ (mid ++ (THINKING_END_TAG ++ post))))
      = some pre.length)
    (hmid : findTag THINKING_END_TAG (mid ++ (THINKING_END_TAG ++ post)) = some mid.length)
    (hpost : findTag THINKING_START_TAG post = none) :
    canon (runChunks chunks)
      = tdOpt pre ++ (ThinkEv.thinkStart
          :: (thOpt mid ++ (ThinkEv.thinkStop :: tdOpt post)))
    ∧ (runChunks chunks).count ThinkEv.thinkStart = 1
    ∧ (runChunks chunks).count ThinkEv.thinkStop = 1
    ∧ thinkContent (runChunks chunks) = mid
    ∧ textContent (runChunks chunks) = pre ++ post := by
  have hmain : canon (runChunks chunks)
      = tdOpt pre ++ (ThinkEv.thinkStart
          :: (thOpt mid ++ (ThinkEv.thinkStop :: tdOpt post))) := by
    rw [runChunks_canon, hflat, parseAll_one_pair pre mid post hpre hmid hpost]
  refine ⟨hmain, ?_, ?_, ?_, ?_⟩
  · rw [← canon_count_start, hmain]
    exact count_start_shape pre mid post
  · rw [← canon_count_stop, hmain]
    exact count_stop_shape pre mid post
  · rw [← canon_thinkContent, hmain]
    simp only [thinkContent_append, thinkContent_tdOpt, thinkContent_cons_start,
      thinkContent_cons_stop, thinkContent_thOpt, List.nil_append, List.append_nil]
  · rw [← canon_textContent, hmain]
    simp only [textContent_append, textContent_tdOpt, textContent_cons_start,
      textContent_cons_stop, textContent_thOpt, List.nil_append, List.append_nil]

/-- Witness for C4: the spec's scenario-3 chunking
`"hello <thi" / "nking>secret</thinking>world"`. -/
theorem c4_chunk_split_safety_witness :
    canon (runChunks ["hello <thi".toList, "nking>secret</thinking>world".toList])
        = tdOpt "hello ".toList ++ (ThinkEv.thinkStart
            :: (thOpt "secret".toList ++ (ThinkEv.thinkStop :: tdOpt "world".toList)))
    ∧ thinkContent (runChunks ["hello <thi".toList, "nking>secret</thinking>world".toList])
        = "secret".toList := by
  have h := c4_chunk_split_safety "hello ".toList "secret".toList "world".toList
    ["hello <thi".toList, "nking>secret</thinking>world".toList]
    (by decide) (by decide) (by decide) (by decide)
  exact ⟨h.1, h.2.2.2.1⟩

end KiroGate

namespace KiroGate

/-- C4 counterexample: the emitted segment lists themselves do depend on the
chunk boundaries — splitting inside the thinking interior cuts the interior
into two deltas — though the merged (canonical) streams coincide. -/
theorem c4_counterexample :
    runChunks ["hello <thinking>sec".toList, "ret</thinking>world".toList]
      ≠ runChunks ["hello <thinking>secret</thinking>world".toList]
    ∧ canon (runChunks ["hello <thinking>sec".toList, "ret</thinking>world".toList])
      = canon (runChunks ["hello <thinking>secret</thinking>world".toList]) :=
  ⟨by decide, by decide⟩

end KiroGate
